import Mathlib

/-!
Verification of the scanflow memory-scanning library (memflow/scanflow).

This file shallowly embeds the core algorithms of the repository:

* `ValueScanner.scan_for` (src/scanflow/src/value_scanner.rs)
* `PointerMap.create_map`, `PointerMap.walk_down_range`,
  `PointerMap.find_matches_addrs`, `signed_diff` (src/scanflow/src/pointer_map.rs)
* `Sigmaker.has_unique_matches`, `Sigmaker.bytes_to_string`,
  `Sigmaker.find_sigs` (src/scanflow/src/sigmaker.rs)

Modelling conventions:

* Target memory is a total function `mem : Nat → Nat` giving the byte stored at
  each address; theorems that depend on bytes being 8-bit take the hypothesis
  that values are below 256.
* Read outcomes of the memory layer are modelled by a status function
  `Nat → RdStat` on stride start addresses.  The Rust code calls
  `read_raw_into(..).data_part().ok()?` in its parallel sweeps: a data-only
  (partial) error is converted to a success by `data_part()` and the stride is
  still scanned, while any remaining hard error is discarded by `.ok()?`,
  which skips the stride.  Neither aborts the sweep.
* The rayon `par_bridge()` used by the value-scanner initial sweep does not
  guarantee any ordering between strides of one memory range.  The order in
  which stride results are concatenated is therefore a parameter `sched`
  (one stride-offset list per range); a faithful schedule is any permutation
  of the canonical ascending stride list.  The refinement path uses
  `par_chunks`, which is order-preserving, so it has no schedule parameter.
* Machine integers are modelled as `Nat`/`Int` with explicit wrapping at
  2 ^ 64 where the Rust code casts between `u64` and `isize`.
* A Rust panic is modelled by an `Option` result (`none` = abort); the
  `Result` value of the Rust function is the `Except String` layer inside.
* The x86 decoder (iced-x86) is an external crate; it is abstracted as a step
  function `Sigstate → Option (List Nat)` returning the mask bytes appended
  for the next decoded instruction, exactly as `add_single_instr` does.
-/

set_option maxRecDepth 100000

namespace Scanflow

/-- Bytes of target memory starting at address `a`, `n` bytes long.  This is
the contents of a buffer filled by `read_raw_into(a, buf)` with `buf.len() = n`. -/
def readBytes (mem : Nat → Nat) (a n : Nat) : List Nat :=
  (List.range' a n).map mem

/-- The sliding windows of width `n` of a buffer, in order: the Lean image of
Rust `slice::windows(n)` for `n ≥ 1` (the `n = 0` panic case is handled at the
call site in `ValueScanner.scan_for`, see `scan_for`). -/
def listWindows (n : Nat) : List α → List (List α)
  | [] => []
  | a :: t => if n ≤ (a :: t).length then (a :: t).take n :: listWindows n t else []

/-- Stride start offsets of a region of `size` bytes, processed in 4 KiB
strides: the Rust iterator `(0..size).step_by(0x1000)`. -/
def strideOffs (size : Nat) : List Nat :=
  (List.range ((size + 0xfff) / 0x1000)).map (fun k => k * 0x1000)

/-- Outcome of one raw read through the memory layer.  `dataErr` is the
"data-only" (partial) error class, `fatal` is a hard error. -/
inductive RdStat where
  | ok : RdStat
  | dataErr : RdStat
  | fatal : RdStat
deriving DecidableEq

/-- After `.data_part()`, a read proceeds with buffer contents unless the
error was a hard one: `data_part()` turns a partial error into a success and
`.ok()?` drops hard errors.  A stride is scanned iff this returns true. -/
def RdStat.proceeds : RdStat → Bool
  | RdStat.ok => true
  | RdStat.dataErr => true
  | RdStat.fatal => false

/-- State of the value scanner (struct ValueScanner in value_scanner.rs). -/
structure ValueScanner where
  scanned : Bool
  matches' : List Nat
  mem_map : List (Nat × Nat)
deriving DecidableEq

namespace ValueScanner

/-- Matches contributed by one 4 KiB stride of the initial sweep: the buffer of
`0x1000 + data.len() - 1` bytes is read at `base + off` and a window of width
`data.len()` slides over it; each window equal to `data` emits its absolute
address `base + off + o`. -/
def strideMatches (mem : Nat → Nat) (data : List Nat) (base off : Nat) : List Nat :=
  (listWindows data.length (readBytes mem (base + off) (0x1000 + data.length - 1))).enum.filterMap
    (fun p => if p.2 = data then some (base + off + p.1) else none)

/-- The refinement path reads the current window of each old match in chunks of
0x100 addresses (rayon par_chunks, order preserving); this models the chunking. -/
def chunks256 : List Nat → List (List Nat)
  | [] => []
  | a :: t => (a :: t).take 256 :: chunks256 ((a :: t).drop 256)
termination_by l => l.length
decreasing_by simp [List.length_drop]; omega

/-- The canonical stride schedule: strides of every range drained in ascending
address order (the order a single-threaded run of the rayon pipeline yields). -/
def canonicalSched : Nat × Nat → List Nat := fun r => strideOffs r.2

/-- The match list produced by the initial sweep: every range contributes its
strides in schedule order, skipped when the stride read does not proceed. -/
def initMatches (mem : Nat → Nat) (status : Nat → RdStat) (ranges : List (Nat × Nat))
    (sched : Nat × Nat → List Nat) (data : List Nat) : List Nat :=
  ranges.flatMap (fun r => (sched r).flatMap (fun off =>
    if (status (r.1 + off)).proceeds then strideMatches mem data r.1 off else []))

/-- The match list produced by the refinement path: the old matches are
processed in order-preserving chunks of 0x100; with a non-empty pattern a
chunk keeps the addresses whose current window equals the pattern, and with an
empty pattern the batched read is skipped and nothing is kept. -/
def refineMatches (mem : Nat → Nat) (old data : List Nat) : List Nat :=
  (chunks256 old).flatMap (fun chunk =>
    if data = [] then []
    else chunk.filter (fun a => readBytes mem a data.length == data))

/-- ValueScanner::scan_for.  `ranges` is the result of
`mapped_mem_range_vec(16 MiB, 0, 1 << 47)`, `status` gives each stride read's
outcome and `sched` the completion order of the parallel strides of each range
(see the file comment).  `none` models the `slice::windows(0)` panic that an
empty pattern triggers on the initial-sweep path as soon as one stride read
proceeds; otherwise the function, like the Rust code, always returns `Ok`. -/
def scan_for (mem : Nat → Nat) (status : Nat → RdStat) (ranges : List (Nat × Nat))
    (sched : Nat × Nat → List Nat) (vs : ValueScanner) (data : List Nat) :
    Option (Except String ValueScanner) :=
  if vs.scanned = false then
    if data = [] ∧ ranges.any (fun r => (sched r).any (fun off => (status (r.1 + off)).proceeds)) then
      none
    else
      some (Except.ok
        { scanned := true
          matches' := initMatches mem status ranges sched data
          mem_map := ranges })
  else
    some (Except.ok
      { scanned := vs.scanned
        matches' := refineMatches mem vs.matches' data
        mem_map := vs.mem_map })

end ValueScanner

/-- Interpretation of a `u64` value as an `isize` on a 64-bit machine: the
`as isize` cast reinterprets the value in two-complement form. -/
def toInt64 (n : Nat) : Int :=
  if n % 2 ^ 64 < 2 ^ 63 then (n % 2 ^ 64 : Nat) else (n % 2 ^ 64 : Nat) - 2 ^ 64

/-- Wrap an integer into the `isize` range, modelling wrapping overflow of
64-bit signed arithmetic (release-mode Rust semantics). -/
def intWrap64 (z : Int) : Int :=
  if z % 2 ^ 64 < 2 ^ 63 then z % 2 ^ 64 else z % 2 ^ 64 - 2 ^ 64

/-- Function signed_diff of pointer_map.rs: `a.checked_sub(b)` succeeds iff
`b ≤ a` and the difference is cast to `isize`; otherwise `-((b - a) as isize)`
with wrapping negation. -/
def signed_diff (a b : Nat) : Int :=
  if b ≤ a then toInt64 (a - b) else intWrap64 (-(toInt64 (b - a)))

/-- Absolute value as computed by `isize::abs` (wrapping at `isize::MIN`,
release-mode Rust semantics). -/
def sabs (x : Int) : Int :=
  if x = -(2 ^ 63) then x else |x|

/-- Address plus signed offset, wrapping as `Address` arithmetic does on a
64-bit machine: the dereference point `a + o` of a chain element. -/
def addOff (a : Nat) (o : Int) : Nat :=
  (((a : Int) + o) % 2 ^ 64).toNat

/-- Little-endian value of a byte window, as built by the create_map loop:
`arr[0..buf.len()].copy_from_slice(buf); u64::from_le_bytes(arr)` with the
remaining high bytes zero (the source notes the big-endian TODO). -/
def leVal : List Nat → Nat
  | [] => 0
  | b :: t => b + 256 * leVal t

/-- Membership of an address in one of the mapped ranges.  The Rust code runs
`binary_search_by` with a comparator that answers Equal iff the address lies
inside the probed range; on the sorted, disjoint range list produced by the
page map this is exactly a membership test. -/
def inRanges (ranges : List (Nat × Nat)) (x : Nat) : Bool :=
  ranges.any (fun r => decide (r.1 ≤ x) && decide (x < r.1 + r.2))

/-- Insertion into an ordered unique-key association list: the effect of
collecting a `(k, v)` pair into the `BTreeMap` forward map. -/
def btreeInsert : List (Nat × Nat) → Nat × Nat → List (Nat × Nat)
  | [], kv => [kv]
  | (k, v) :: rest, (k2, v2) =>
    if k2 < k then (k2, v2) :: (k, v) :: rest
    else if k2 = k then (k, v2) :: rest
    else (k, v) :: btreeInsert rest (k2, v2)

/-- Append source `k` to the inverse-map entry of target `v`, keeping the
entries ordered by key: `self.inverse_map.entry(v).or_default().push(k)`. -/
def addEdge : List (Nat × List Nat) → Nat → Nat → List (Nat × List Nat)
  | [], v, k => [(v, [k])]
  | (t, s) :: rest, v, k =>
    if v < t then (v, [k]) :: (t, s) :: rest
    else if v = t then (t, s ++ [k]) :: rest
    else (t, s) :: addEdge rest v k

/-- State of the pointer map (struct PointerMap in pointer_map.rs). -/
structure PointerMap where
  map : List (Nat × Nat)
  inverse_map : List (Nat × List Nat)
  pointers : List Nat
deriving DecidableEq

namespace PointerMap

/-- Pointer-shaped words found in one 4 KiB stride of create_map: the buffer of
`0x1000 + size_addr - 1` bytes is read at `base + off`; every window of
`size_addr` bytes is decoded little-endian and kept iff the decoded value falls
inside a mapped range. -/
def stridePtrs (mem : Nat → Nat) (ranges : List (Nat × Nat)) (size_addr base off : Nat) :
    List (Nat × Nat) :=
  (listWindows size_addr (readBytes mem (base + off) (0x1000 + size_addr - 1))).enum.filterMap
    (fun p =>
      if inRanges ranges (leVal p.2) then some (base + off + p.1, leVal p.2) else none)

/-- PointerMap::create_map.  `ranges` is the 16 MiB-coalesced page map; per
stride, `.data_part().ok()?` skips the stride on a hard error and otherwise
scans it (see the file comment).  The forward map is a BTreeMap, so collection
order is immaterial; the inverse map and pointer list are then derived from the
forward map in ascending key order, exactly as lines 102-106 of
pointer_map.rs do.  The function never returns an error. -/
def create_map (mem : Nat → Nat) (status : Nat → RdStat) (ranges : List (Nat × Nat))
    (size_addr : Nat) : Except String PointerMap :=
  let pairs := ranges.flatMap (fun r => (strideOffs r.2).flatMap (fun off =>
    if (status (r.1 + off)).proceeds then stridePtrs mem ranges size_addr r.1 off else []))
  let mp := pairs.foldl btreeInsert []
  Except.ok
    { map := mp
      inverse_map := mp.foldl (fun inv kv => addEdge inv kv.2 kv.1) []
      pointers := mp.map Prod.fst }

/-- The candidate entry points considered by one step of walk_down_range:
`binary_search(&min)` finds the lower bound in the sorted entry list, the
iterator then skips to it and takes while the value is at most `max`. -/
def candidatesIn (sp : List Nat) (mn mx : Nat) : List Nat :=
  (sp.dropWhile (fun v => decide (v < mn))).takeWhile (fun v => decide (v ≤ mx))

/-- The selection loop of walk_down_range lines 152-163: start from the first
candidate and replace it whenever a strictly smaller absolute signed offset is
seen (the strict comparison keeps the first of two equidistant candidates). -/
def pickLoop (addr : Nat) : List Nat → Option Nat
  | [] => none
  | c :: rest =>
    some (rest.foldl
      (fun m e => if sabs (signed_diff addr e) < sabs (signed_diff addr m) then e else m) c)

/-- The single entry point chosen at one walker step (lines 140-163): the
interval is `[addr - urange, addr + lrange]` with saturating `u64` bounds. -/
def closestEntry (addr lrange urange : Nat) (sp : List Nat) : Option Nat :=
  pickLoop addr (candidatesIn sp (addr - urange) (min (addr + lrange) (2 ^ 64 - 1)))

/-- PointerMap::walk_down_range, with `fuel = max_levels - level` as the
recursion budget.  The chain for a found entry is pushed before recursing, and
recursion visits the inverse-map entries with keys in
`[addr - urange, addr + lrange]` in ascending order, extending the stack `tmp`
with `(k, signed_diff addr k)` and recursing into every source of `k`.
Progress-bar bookkeeping is omitted (it does not touch the output). -/
def walkAux (inv : List (Nat × List Nat)) (sp : List Nat) (lrange urange : Nat) :
    Nat → Nat → List (Nat × Int) → List (List (Nat × Int))
  | fuel, addr, tmp =>
    let mn := addr - urange
    let mx := min (addr + lrange) (2 ^ 64 - 1)
    let base := match closestEntry addr lrange urange sp with
      | some e => [(tmp ++ [(e, signed_diff addr e)]).reverse]
      | none => []
    base ++ (match fuel with
      | 0 => []
      | fuel + 1 =>
        (inv.filter (fun p => decide (mn ≤ p.1) && decide (p.1 ≤ mx))).flatMap (fun p =>
          p.2.flatMap (fun v =>
            walkAux inv sp lrange urange fuel v (tmp ++ [(p.1, signed_diff addr p.1)]))))

/-- PointerMap::find_matches_addrs: walk down from every searched-for address,
pairing each produced chain with the target address it leads to. -/
def find_matches_addrs (pm : PointerMap) (lrange urange max_depth : Nat)
    (search_for entry_points : List Nat) : List (Nat × List (Nat × Int)) :=
  search_for.flatMap (fun m =>
    (walkAux pm.inverse_map entry_points lrange urange (max_depth - 1) m []).map
      (fun c => (m, c)))

/-- PointerMap::find_matches is find_matches_addrs with the collected pointer
list as the entry set. -/
def find_matches (pm : PointerMap) (lrange urange max_depth : Nat)
    (search_for : List Nat) : List (Nat × List (Nat × Int)) :=
  find_matches_addrs pm lrange urange max_depth search_for pm.pointers

/-- Validity of one emitted chain `[(a1, o1), ..., (ak, ok)]` against target
`m`: every intermediate step dereferences through the forward map,
`map[ai + oi] = a(i+1)`, and the last step lands on the target arithmetically,
`ak + ok = m`. -/
def chainOkB (mp : List (Nat × Nat)) : List (Nat × Int) → Nat → Bool
  | [], _ => false
  | [(a, o)], m => addOff a o == m
  | (a, o) :: b :: rest, m =>
    (List.lookup (addOff a o) mp == some b.1) && chainOkB mp (b :: rest) m

end PointerMap

/-- Transient per-candidate state of the signature maker (struct Sigstate in
sigmaker.rs): the candidate instruction address, the fixed 128-byte buffer
captured from it, and the mask built so far (one byte per buffered byte of the
decoded prefix, 0xFF = compare, 0x00 = wildcard).  The decoder position is
implicit in the mask length. -/
structure Sigstate where
  start_ip : Nat
  buf : List Nat
  mask : List Nat
deriving DecidableEq

namespace Sigmaker

/-- MAX_SIG_LENGTH of sigmaker.rs. -/
def MAX_SIG_LENGTH : Nat := 128

/-- Sigstate::add_single_instr, with the iced-x86 decoder and the masking
rules of mask_instr abstracted into `step`: `step s` returns the mask bytes
appended for the next decoded instruction (its length equals the instruction
length), or `none` when the decoder cannot decode further or yields INVALID.
Only the mask changes; start_ip and buf are untouched. -/
def add_single_instr (step : Sigstate → Option (List Nat)) (s : Sigstate) : Option Sigstate :=
  (step s).map (fun ext => { s with mask := s.mask ++ ext })

/-- Masked equality of a 128-byte window against a signature, as computed in
has_unique_matches: both sides are zipped with the mask (truncating to the
decoded prefix) and compared after AND-ing with the mask byte. -/
def maskedEq (w bytes mask : List Nat) : Bool :=
  ((w.zip mask).map (fun p => p.1 &&& p.2)) == ((bytes.zip mask).map (fun p => p.1 &&& p.2))

/-- Number of masked matches of one signature at window addresses other than
its own start ip, over the code-section ranges: Sigmaker::has_unique_matches
reads each range in 4 KiB strides into a buffer of `0x1000 + 127` bytes and
slides a 128-byte window over it. -/
def dupCount (mem : Nat → Nat) (ranges : List (Nat × Nat)) (s : Sigstate) : Nat :=
  (ranges.map (fun r =>
    ((strideOffs r.2).map (fun off =>
      (listWindows MAX_SIG_LENGTH (readBytes mem (r.1 + off) (0x1000 + MAX_SIG_LENGTH - 1))).enum.countP
        (fun p =>
          maskedEq p.2 s.buf s.mask && decide (¬r.1 + off + p.1 = s.start_ip)))).sum)).sum

/-- Upper-case hexadecimal digit character. -/
def hexDigit (n : Nat) : Char :=
  if n < 10 then Char.ofNat (48 + n) else Char.ofNat (55 + n)

/-- The two-digit upper-case rendering `format!("{:02X}", b)` of a byte. -/
def hexPair (b : Nat) : String :=
  String.mk [hexDigit (b / 16), hexDigit (b % 16)]

/-- The per-position tokens of Sigmaker::bytes_to_string: the buffer is zipped
with the mask (truncating to the decoded prefix) and each position renders as
a literal question mark when its mask byte is zero, else as two upper-case hex
digits. -/
def sigTokens (bytes mask : List Nat) : List String :=
  (bytes.zip mask).map (fun p => if p.2 = 0 then "?" else hexPair p.1)

/-- Sigmaker::bytes_to_string: the tokens joined by single spaces. -/
def bytes_to_string (bytes mask : List Nat) : String :=
  String.intercalate " " (sigTokens bytes mask)

/-- Specification-side value of a hexadecimal digit character, used to state
that the rendered tokens really are the hexadecimal encoding of the buffer
bytes (the round-trip reading of "uppercase two-digit hex pairs"). -/
def hexDigitVal (c : Char) : Nat :=
  if c ≤ '9' then c.toNat - 48 else c.toNat - 55

/-- Specification-side value of a hexadecimal string (see hexDigitVal). -/
def hexVal (s : String) : Nat :=
  s.toList.foldl (fun a c => a * 16 + hexDigitVal c) 0

/-- Sigmaker::has_unique_matches: push the rendering of every state with zero
duplicate matches and report whether any state was unique. -/
def has_unique_matches (mem : Nat → Nat) (ranges : List (Nat × Nat))
    (states : List Sigstate) : Bool × List String :=
  let uniq := states.filter (fun s => dupCount mem ranges s == 0)
  (!uniq.isEmpty, uniq.map (fun s => bytes_to_string s.buf s.mask))

/-- The driving loop of Sigmaker::find_sigs: ask every state to decode one
more instruction; stop with an empty result when none accepted, otherwise run
the uniqueness test, returning its output when some state was unique.  `fuel`
bounds the iteration count (in the Rust code the 128-byte buffer bounds it). -/
def find_sigs_loop (mem : Nat → Nat) (ranges : List (Nat × Nat))
    (step : Sigstate → Option (List Nat)) : Nat → List Sigstate → List String
  | 0, _ => []
  | fuel + 1, states =>
    let states2 := states.map (fun s => (add_single_instr step s).getD s)
    if states.any (fun s => (add_single_instr step s).isSome) then
      if (has_unique_matches mem ranges states2).1 then (has_unique_matches mem ranges states2).2
      else find_sigs_loop mem ranges step fuel states2
    else []

/-- Sigmaker::find_sigs, with module/section discovery abstracted: `addrs` is
`disasm.inverse_map()[target_global]` (the candidate instruction addresses
referencing the global) and `ranges` the code-section ranges of the containing
module.  Each candidate address gets a 128-byte buffer batch-read from memory
and an empty mask, then the loop runs. -/
def find_sigs (mem : Nat → Nat) (ranges : List (Nat × Nat)) (addrs : List Nat)
    (step : Sigstate → Option (List Nat)) (fuel : Nat) : List String :=
  find_sigs_loop mem ranges step fuel
    (addrs.map (fun a => { start_ip := a, buf := readBytes mem a MAX_SIG_LENGTH, mask := [] }))

end Sigmaker

/-! Helper lemmas: buffers and sliding windows. -/

theorem readBytes_zero (mem : Nat → Nat) (a : Nat) : readBytes mem a 0 = [] := rfl

theorem readBytes_succ (mem : Nat → Nat) (a n : Nat) :
    readBytes mem a (n + 1) = mem a :: readBytes mem (a + 1) n := by
  simp [readBytes, List.range'_succ]

theorem readBytes_length (mem : Nat → Nat) (a n : Nat) : (readBytes mem a n).length = n := by
  simp [readBytes]

theorem readBytes_take (mem : Nat → Nat) :
    ∀ (n a L : Nat), n ≤ L → (readBytes mem a L).take n = readBytes mem a n := by
  intro n
  induction n with
  | zero => intro a L _; simp [readBytes_zero]
  | succ n ih =>
    intro a L h
    match L, h with
    | L + 1, h =>
      rw [readBytes_succ, readBytes_succ, List.take_succ_cons, ih (a + 1) L (by omega)]

theorem listWindows_readBytes (mem : Nat → Nat) (n : Nat) (hn : 1 ≤ n) :
    ∀ (L a : Nat), listWindows n (readBytes mem a L) =
      (List.range (L + 1 - n)).map (fun o => readBytes mem (a + o) n) := by
  intro L
  induction L with
  | zero =>
    intro a
    have h1 : 1 - n = 0 := by omega
    simp [readBytes_zero, listWindows, h1]
  | succ L ih =>
    intro a
    rw [readBytes_succ]
    by_cases h : n ≤ L + 1
    · have hlen : (mem a :: readBytes mem (a + 1) L).length = L + 1 := by
        simp [readBytes_length]
      rw [listWindows, if_pos (by rw [hlen]; exact h)]
      have htake : (mem a :: readBytes mem (a + 1) L).take n = readBytes mem a n := by
        rw [← readBytes_succ, readBytes_take mem n a (L + 1) h]
      have hk : L + 1 + 1 - n = (L + 1 - n) + 1 := by omega
      rw [htake, ih (a + 1), hk, List.range_succ_eq_map, List.map_cons, List.map_map]
      refine congrArg₂ _ (by simp) ?_
      refine List.map_congr_left (fun o _ => ?_)
      simp only [Function.comp]
      rw [show a + Nat.succ o = a + 1 + o by omega]
    · have hlen : ¬n ≤ (mem a :: readBytes mem (a + 1) L).length := by
        simp [readBytes_length]; omega
      have hk : L + 1 + 1 - n = 0 := by omega
      rw [listWindows, if_neg hlen, hk]
      simp

theorem enum_map_range (f : Nat → α) (k : Nat) :
    ((List.range k).map f).enum = (List.range k).map (fun o => (o, f o)) := by
  rw [List.enum_map, List.enum_eq_zip_range]
  have h1 : (List.range k).zip (List.range k) = (List.range k).map (fun o => (o, o)) := by
    have := List.zip_map' (id : Nat → Nat) (id : Nat → Nat) (List.range k)
    simpa using this
  simp only [List.length_range, h1, List.map_map]
  rfl

/-- The windows of a stride buffer read at `A`, enumerated, are exactly the
4096 direct reads at `A + o`: windows of width `n` over `L` read bytes give
`L + 1 - n` positions. -/
theorem windowsEnum_char (mem : Nat → Nat) (n L k A : Nat) (hn : 1 ≤ n)
    (hL : L + 1 - n = k) :
    (listWindows n (readBytes mem A L)).enum =
      (List.range k).map (fun o => (o, readBytes mem (A + o) n)) := by
  rw [listWindows_readBytes mem n hn L A, hL, enum_map_range]

/-- Stride matches, characterised per window address. -/
theorem strideMatches_char (mem : Nat → Nat) (data : List Nat) (base off : Nat)
    (hd : data ≠ []) :
    ValueScanner.strideMatches mem data base off =
      (List.range 0x1000).filterMap (fun o =>
        if readBytes mem (base + off + o) data.length = data then some (base + off + o)
        else none) := by
  have hn : 1 ≤ data.length := List.length_pos.mpr hd
  rw [ValueScanner.strideMatches,
    windowsEnum_char mem data.length (0x1000 + data.length - 1) 0x1000 (base + off) hn
      (by omega),
    List.filterMap_map]
  rfl

/-- Stride pointer collection, characterised per window address. -/
theorem stridePtrs_char (mem : Nat → Nat) (ranges : List (Nat × Nat))
    (size_addr base off : Nat) (hs : 1 ≤ size_addr) :
    PointerMap.stridePtrs mem ranges size_addr base off =
      (List.range 0x1000).filterMap (fun o =>
        if inRanges ranges (leVal (readBytes mem (base + off + o) size_addr)) then
          some (base + off + o, leVal (readBytes mem (base + off + o) size_addr))
        else none) := by
  rw [PointerMap.stridePtrs,
    windowsEnum_char mem size_addr (0x1000 + size_addr - 1) 0x1000 (base + off) hs (by omega),
    List.filterMap_map]
  rfl

/-! Helper lemmas: ordering of the initial-sweep match list. -/

theorem filterMap_if_pairwise (k c : Nat) (P : Nat → Prop) [DecidablePred P] :
    ((List.range k).filterMap (fun o => if P o then some (c + o) else none)).Pairwise
      (· < ·) := by
  rw [List.pairwise_filterMap]
  refine (List.pairwise_lt_range k).imp (fun {o o2} h => ?_)
  intro b hb b2 hb2
  by_cases h1 : P o <;> by_cases h2 : P o2 <;> simp [h1, h2] at hb hb2
  omega

/-- Concatenating blocks that are each strictly sorted and confined to
separated intervals yields a strictly sorted list. -/
theorem pairwise_flatMap_of_blocks {l : List α} {f : α → List Nat} (lo hi : α → Nat)
    (hblock : ∀ a ∈ l, (f a).Pairwise (· < ·))
    (hbound : ∀ a ∈ l, ∀ x ∈ f a, lo a ≤ x ∧ x < hi a)
    (hsep : l.Pairwise (fun a b => hi a ≤ lo b)) :
    (l.flatMap f).Pairwise (· < ·) := by
  rw [List.flatMap_def, List.pairwise_flatten]
  constructor
  · intro l2 hl2
    rw [List.mem_map] at hl2
    obtain ⟨a, ha, rfl⟩ := hl2
    exact hblock a ha
  · rw [List.pairwise_map]
    refine hsep.imp_of_mem (fun {a b} ha hb h => ?_)
    intro x hx y hy
    have h1 := hbound a ha x hx
    have h2 := hbound b hb y hy
    omega

theorem strideMatches_pairwise (mem : Nat → Nat) (data : List Nat) (base off : Nat)
    (hd : data ≠ []) :
    (ValueScanner.strideMatches mem data base off).Pairwise (· < ·) := by
  rw [strideMatches_char mem data base off hd]
  exact filterMap_if_pairwise 0x1000 (base + off)
    (fun o => readBytes mem (base + off + o) data.length = data)

theorem strideMatches_bounds (mem : Nat → Nat) (data : List Nat) (base off : Nat)
    (hd : data ≠ []) :
    ∀ x ∈ ValueScanner.strideMatches mem data base off,
      base + off ≤ x ∧ x < base + off + 0x1000 := by
  rw [strideMatches_char mem data base off hd]
  intro x hx
  rw [List.mem_filterMap] at hx
  obtain ⟨o, ho, hxo⟩ := hx
  rw [List.mem_range] at ho
  by_cases h1 : readBytes mem (base + off + o) data.length = data <;> simp [h1] at hxo
  omega

theorem strideOffs_pairwise (size : Nat) :
    (strideOffs size).Pairwise (fun o1 o2 => o1 + 0x1000 ≤ o2) := by
  rw [strideOffs, List.pairwise_map]
  exact (List.pairwise_lt_range _).imp (fun {a b} h => by omega)

theorem strideOffs_lt_size {size : Nat} : ∀ off ∈ strideOffs size, off < size := by
  intro off hoff
  rw [strideOffs, List.mem_map] at hoff
  obtain ⟨k, hk, rfl⟩ := hoff
  rw [List.mem_range] at hk
  omega

/-- One range of the canonical (ascending) schedule yields a strictly sorted
match list confined to the window span of the range. -/
theorem rangeMatches_pairwise (mem : Nat → Nat) (status : Nat → RdStat)
    (data : List Nat) (base size : Nat) (hd : data ≠ []) :
    ((strideOffs size).flatMap (fun off =>
      if (status (base + off)).proceeds then ValueScanner.strideMatches mem data base off
      else [])).Pairwise (· < ·) := by
  refine pairwise_flatMap_of_blocks (fun off => base + off) (fun off => base + off + 0x1000)
    ?_ ?_ ?_
  · intro off _
    by_cases h : (status (base + off)).proceeds <;> simp [h]
    exact strideMatches_pairwise mem data base off hd
  · intro off _ x hx
    by_cases h : (status (base + off)).proceeds <;> simp [h] at hx
    exact strideMatches_bounds mem data base off hd x hx
  · refine (strideOffs_pairwise size).imp (fun {a b} h => ?_)
    show base + a + 0x1000 ≤ base + b
    omega

theorem rangeMatches_bounds (mem : Nat → Nat) (status : Nat → RdStat)
    (data : List Nat) (base size : Nat) (hd : data ≠ []) :
    ∀ x ∈ (strideOffs size).flatMap (fun off =>
      if (status (base + off)).proceeds then ValueScanner.strideMatches mem data base off
      else []),
      base ≤ x ∧ x < base + size + 0xfff := by
  intro x hx
  rw [List.mem_flatMap] at hx
  obtain ⟨off, hoff, hxoff⟩ := hx
  have hlt := strideOffs_lt_size off hoff
  by_cases h : (status (base + off)).proceeds <;> simp [h] at hxoff
  have := strideMatches_bounds mem data base off hd x hxoff
  omega

/-- The canonical-schedule initial sweep is strictly sorted, provided the
coalesced memory ranges are separated by more than one stride (the 16 MiB
coalescing gap of mapped_mem_range_vec guarantees far more). -/
theorem initMatches_canonical_pairwise (mem : Nat → Nat) (status : Nat → RdStat)
    (ranges : List (Nat × Nat)) (data : List Nat) (hd : data ≠ [])
    (hgap : ranges.Pairwise (fun r r2 => r.1 + r.2 + 0x1000 ≤ r2.1)) :
    (ValueScanner.initMatches mem status ranges ValueScanner.canonicalSched data).Pairwise
      (· < ·) := by
  rw [ValueScanner.initMatches]
  refine pairwise_flatMap_of_blocks (fun r => r.1) (fun r => r.1 + r.2 + 0x1000) ?_ ?_ ?_
  · intro r _
    exact rangeMatches_pairwise mem status data r.1 r.2 hd
  · intro r _ x hx
    have := rangeMatches_bounds mem status data r.1 r.2 hd x hx
    show r.1 ≤ x ∧ x < r.1 + r.2 + 0x1000
    omega
  · exact hgap

/-- Any faithful schedule (a permutation of the canonical strides per range)
produces a permutation of the canonical match list. -/
theorem initMatches_perm (mem : Nat → Nat) (status : Nat → RdStat)
    (ranges : List (Nat × Nat)) (sched : Nat × Nat → List Nat) (data : List Nat)
    (hperm : ∀ r ∈ ranges, (sched r).Perm (strideOffs r.2)) :
    (ValueScanner.initMatches mem status ranges sched data).Perm
      (ValueScanner.initMatches mem status ranges ValueScanner.canonicalSched data) := by
  rw [ValueScanner.initMatches, ValueScanner.initMatches]
  refine List.Perm.flatMap_left ranges (fun r hr => ?_)
  exact List.Perm.flatMap_right _ (hperm r hr)

/-! Helper lemmas: the refinement path. -/

theorem chunks256_filter_flatMap (p : Nat → Bool) (l : List Nat) :
    (ValueScanner.chunks256 l).flatMap (fun c => c.filter p) = l.filter p := by
  match l with
  | [] => simp [ValueScanner.chunks256]
  | a :: t =>
    rw [ValueScanner.chunks256]
    have ih := chunks256_filter_flatMap p ((a :: t).drop 256)
    rw [List.flatMap_cons, ih, ← List.filter_append, List.take_append_drop]
termination_by l.length
decreasing_by simp [List.length_drop]; omega

theorem refineMatches_eq (mem : Nat → Nat) (old data : List Nat) :
    ValueScanner.refineMatches mem old data =
      if data = [] then []
      else old.filter (fun a => readBytes mem a data.length == data) := by
  by_cases hd : data = []
  · simp [ValueScanner.refineMatches, hd]
  · simp only [ValueScanner.refineMatches, if_neg hd]
    exact chunks256_filter_flatMap _ old

/-! Helper lemmas: wrapping 64-bit arithmetic. -/

theorem toInt64_emod (n : Nat) : toInt64 n % 2 ^ 64 = (n : Int) % 2 ^ 64 := by
  rw [toInt64]
  split <;> push_cast <;> omega

theorem intWrap64_emod (z : Int) : intWrap64 z % 2 ^ 64 = z % 2 ^ 64 := by
  rw [intWrap64]
  split <;> omega

theorem signed_diff_emod (a b : Nat) :
    signed_diff a b % 2 ^ 64 = ((a : Int) - b) % 2 ^ 64 := by
  rw [signed_diff]
  split
  · next h =>
    rw [toInt64_emod]
    have h1 : ((a - b : Nat) : Int) = (a : Int) - b := by omega
    rw [h1]
  · next h =>
    rw [intWrap64_emod]
    have h1 : (-(toInt64 (b - a))) % 2 ^ 64 = (-((b - a : Nat) : Int)) % 2 ^ 64 :=
      Int.ModEq.neg (toInt64_emod (b - a))
    have h2 : (-((b - a : Nat) : Int)) = (a : Int) - b := by omega
    rw [h1, h2]

/-- The dereference point recorded by the walker is exactly the address the
offset was computed against: `x + signed_diff(addr, x) = addr` in wrapping
address arithmetic, whenever `addr` is a valid 64-bit address. -/
theorem addOff_signed_diff (a b : Nat) (ha : a < 2 ^ 64) :
    addOff b (signed_diff a b) = a := by
  rw [addOff]
  have h1 : ((b : Int) + signed_diff a b) % 2 ^ 64 = ((b : Int) + ((a : Int) - b)) % 2 ^ 64 :=
    Int.ModEq.add_left _ (signed_diff_emod a b)
  have h2 : (b : Int) + ((a : Int) - b) = (a : Int) := by ring
  have h3 : (a : Int) % 2 ^ 64 = (a : Int) := by omega
  rw [h1, h2, h3, Int.toNat_natCast]

theorem signed_diff_exact_le {a b : Nat} (h : b ≤ a) (h2 : a - b < 2 ^ 63) :
    signed_diff a b = (a : Int) - b := by
  rw [signed_diff, if_pos h, toInt64]
  have h3 : (a - b) % 2 ^ 64 = a - b := by omega
  rw [h3, if_pos (by omega)]
  push_cast [h]
  ring

theorem signed_diff_exact_gt {a b : Nat} (h : a < b) (h2 : b - a < 2 ^ 63) :
    signed_diff a b = -((b : Int) - a) := by
  have h4 : toInt64 (b - a) = (b : Int) - a := by
    rw [toInt64, show (b - a) % 2 ^ 64 = b - a by omega, if_pos (by omega)]
    omega
  rw [signed_diff, if_neg (by omega), h4, intWrap64]
  split <;> omega

/-! Helper lemmas: the BTreeMap model and the inverse map. -/

theorem btreeInsert_pairwise (kv : Nat × Nat) :
    ∀ m : List (Nat × Nat), m.Pairwise (fun p q => p.1 < q.1) →
      (btreeInsert m kv).Pairwise (fun p q => p.1 < q.1) := by
  intro m
  induction m with
  | nil => intro _; simp [btreeInsert]
  | cons hd tl ih =>
    intro hp
    rw [List.pairwise_cons] at hp
    obtain ⟨hhd, htl⟩ := hp
    match hd, kv with
    | (k, v), (k2, v2) =>
      rw [btreeInsert]
      by_cases h1 : k2 < k
      · rw [if_pos h1]
        refine List.Pairwise.cons ?_ (List.Pairwise.cons hhd htl)
        intro q hq
        rcases List.mem_cons.mp hq with rfl | hq2
        · exact h1
        · exact lt_trans h1 (hhd q hq2)
      · rw [if_neg h1]
        by_cases h2 : k2 = k
        · rw [if_pos h2]
          exact List.Pairwise.cons hhd htl
        · rw [if_neg h2]
          refine List.Pairwise.cons ?_ (ih htl)
          intro q hq
          have hmem := hq
          -- every element of the insertion result is the new pair or an old one
          clear hmem
          revert hq
          have hsub : ∀ q ∈ btreeInsert tl (k2, v2), q.1 = k2 ∨ q ∈ tl := by
            clear ih hhd htl
            induction tl with
            | nil => intro q hq; simp [btreeInsert] at hq; simp [hq]
            | cons hd2 tl2 ih2 =>
              intro q hq
              match hd2 with
              | (k3, v3) =>
                rw [btreeInsert] at hq
                by_cases h3 : k2 < k3
                · rw [if_pos h3] at hq
                  rcases List.mem_cons.mp hq with rfl | hq2
                  · simp
                  · simp [hq2]
                · rw [if_neg h3] at hq
                  by_cases h4 : k2 = k3
                  · rw [if_pos h4] at hq
                    rcases List.mem_cons.mp hq with rfl | hq2
                    · simp [h4]
                    · simp [hq2]
                  · rw [if_neg h4] at hq
                    rcases List.mem_cons.mp hq with rfl | hq2
                    · simp
                    · rcases ih2 q hq2 with h5 | h5
                      · simp [h5]
                      · simp [h5]
          intro hq
          rcases hsub q hq with h5 | h5
          · omega
          · exact hhd q h5

theorem btreeInsert_mem_keys (kv : Nat × Nat) :
    ∀ m : List (Nat × Nat), ∀ q ∈ btreeInsert m kv, q.1 = kv.1 ∨ q ∈ m := by
  intro m
  induction m with
  | nil => intro q hq; simp [btreeInsert] at hq; simp [hq]
  | cons hd tl ih =>
    intro q hq
    match hd, kv with
    | (k, v), (k2, v2) =>
      rw [btreeInsert] at hq
      by_cases h1 : k2 < k
      · rw [if_pos h1] at hq
        rcases List.mem_cons.mp hq with rfl | hq2
        · simp
        · simp [hq2]
      · rw [if_neg h1] at hq
        by_cases h2 : k2 = k
        · rw [if_pos h2] at hq
          rcases List.mem_cons.mp hq with rfl | hq2
          · simp [h2]
          · simp [hq2]
        · rw [if_neg h2] at hq
          rcases List.mem_cons.mp hq with rfl | hq2
          · simp
          · rcases ih q hq2 with h5 | h5
            · simp [h5]
            · simp [h5]

theorem foldl_btreeInsert_pairwise :
    ∀ (pairs : List (Nat × Nat)) (acc : List (Nat × Nat)),
      acc.Pairwise (fun p q => p.1 < q.1) →
      (pairs.foldl btreeInsert acc).Pairwise (fun p q => p.1 < q.1) := by
  intro pairs
  induction pairs with
  | nil => intro acc h; exact h
  | cons kv tl ih =>
    intro acc h
    exact ih (btreeInsert acc kv) (btreeInsert_pairwise kv acc h)

theorem foldl_btreeInsert_keys (P : Nat → Prop) :
    ∀ (pairs : List (Nat × Nat)) (acc : List (Nat × Nat)),
      (∀ kv ∈ pairs, P kv.1) → (∀ q ∈ acc, P q.1) →
      ∀ q ∈ pairs.foldl btreeInsert acc, P q.1 := by
  intro pairs
  induction pairs with
  | nil => intro acc _ hacc q hq; exact hacc q hq
  | cons kv tl ih =>
    intro acc hp hacc q hq
    refine ih (btreeInsert acc kv) (fun x hx => hp x (List.mem_cons_of_mem kv hx)) ?_ q hq
    intro x hx
    rcases btreeInsert_mem_keys kv acc x hx with h | h
    · rw [h]; exact hp kv (List.mem_cons_self kv tl)
    · exact hacc x h

theorem addEdge_sources :
    ∀ (inv : List (Nat × List Nat)) (v k t : Nat) (s : List Nat),
      (t, s) ∈ addEdge inv v k → ∀ x ∈ s,
        (t = v ∧ x = k) ∨ (∃ s0, (t, s0) ∈ inv ∧ x ∈ s0) := by
  intro inv
  induction inv with
  | nil =>
    intro v k t s hm x hx
    simp [addEdge] at hm
    obtain ⟨rfl, rfl⟩ := hm
    simp at hx
    exact Or.inl ⟨rfl, hx⟩
  | cons hd tl ih =>
    intro v k t s hm x hx
    match hd with
    | (t0, s0) =>
      rw [addEdge] at hm
      by_cases h1 : v < t0
      · rw [if_pos h1] at hm
        rcases List.mem_cons.mp hm with heq | hm2
        · cases heq
          simp at hx
          exact Or.inl ⟨rfl, hx⟩
        · exact Or.inr ⟨s, hm2, hx⟩
      · rw [if_neg h1] at hm
        by_cases h2 : v = t0
        · rw [if_pos h2] at hm
          rcases List.mem_cons.mp hm with heq | hm2
          · cases heq
            rcases List.mem_append.mp hx with hx1 | hx2
            · exact Or.inr ⟨s0, List.mem_cons_self _ _, hx1⟩
            · simp at hx2
              exact Or.inl ⟨h2.symm, hx2⟩
          · exact Or.inr ⟨s, List.mem_cons_of_mem _ hm2, hx⟩
        · rw [if_neg h2] at hm
          rcases List.mem_cons.mp hm with heq | hm2
          · exact Or.inr ⟨s, heq ▸ List.mem_cons_self _ _, hx⟩
          · rcases ih v k t s hm2 x hx with h | ⟨s1, hs1, hxs1⟩
            · exact Or.inl h
            · exact Or.inr ⟨s1, List.mem_cons_of_mem _ hs1, hxs1⟩

theorem foldl_addEdge_sources (Q : Nat → Nat → Prop) :
    ∀ (pairs : List (Nat × Nat)) (acc : List (Nat × List Nat)),
      (∀ kv ∈ pairs, Q kv.1 kv.2) →
      (∀ t s, (t, s) ∈ acc → ∀ x ∈ s, Q x t) →
      ∀ t s, (t, s) ∈ pairs.foldl (fun inv kv => addEdge inv kv.2 kv.1) acc →
        ∀ x ∈ s, Q x t := by
  intro pairs
  induction pairs with
  | nil => intro acc _ hacc t s hm x hx; exact hacc t s hm x hx
  | cons kv tl ih =>
    intro acc hp hacc t s hm x hx
    refine ih (addEdge acc kv.2 kv.1) (fun q hq => hp q (List.mem_cons_of_mem kv hq)) ?_
      t s hm x hx
    intro t2 s2 hm2 y hy
    rcases addEdge_sources acc kv.2 kv.1 t2 s2 hm2 y hy with ⟨rfl, rfl⟩ | ⟨s3, hs3, hys3⟩
    · exact hp kv (List.mem_cons_self kv tl)
    · exact hacc t2 s3 hs3 y hys3

theorem lookup_eq_of_mem :
    ∀ (mp : List (Nat × Nat)), mp.Pairwise (fun p q => p.1 < q.1) →
      ∀ v t, (v, t) ∈ mp → List.lookup v mp = some t := by
  intro mp
  induction mp with
  | nil => intro _ v t hm; simp at hm
  | cons hd tl ih =>
    intro hp v t hm
    rw [List.pairwise_cons] at hp
    obtain ⟨hhd, htl⟩ := hp
    match hd with
    | (k0, v0) =>
      rw [List.lookup_cons]
      by_cases h : v = k0
      · subst h
        simp only [beq_self_eq_true]
        rcases List.mem_cons.mp hm with heq | hm2
        · cases heq; rfl
        · exact absurd (hhd (v, t) hm2) (by simp)
      · have hbeq : (v == k0) = false := beq_false_of_ne h
        simp only [hbeq]
        rcases List.mem_cons.mp hm with heq | hm2
        · cases heq; simp at h
        · exact ih htl v t hm2

theorem leVal_lt : ∀ l : List Nat, (∀ b ∈ l, b < 256) → leVal l < 256 ^ l.length := by
  intro l
  induction l with
  | nil => intro _; simp [leVal]
  | cons b t ih =>
    intro h
    have hb : b < 256 := h b (List.mem_cons_self b t)
    have ht := ih (fun x hx => h x (List.mem_cons_of_mem b hx))
    rw [leVal]
    simp only [List.length_cons, pow_succ]
    calc b + 256 * leVal t < 256 + 256 * leVal t := by omega
    _ ≤ 256 * (leVal t + 1) := by ring_nf; omega
    _ ≤ 256 * 256 ^ t.length := by
        have : leVal t + 1 ≤ 256 ^ t.length := ht
        exact Nat.mul_le_mul_left 256 this
    _ = 256 ^ t.length * 256 := by ring

/-! Helper lemmas: the entry-point selection of the chain walker. -/

theorem sorted_dropWhile_lb (mn : Nat) :
    ∀ sp : List Nat, sp.Pairwise (· ≤ ·) →
      ∀ x ∈ sp.dropWhile (fun v => decide (v < mn)), mn ≤ x := by
  intro sp
  induction sp with
  | nil => intro _ x hx; simp [List.dropWhile] at hx
  | cons a t ih =>
    intro hp x hx
    rw [List.pairwise_cons] at hp
    obtain ⟨ha, ht⟩ := hp
    rw [List.dropWhile] at hx
    by_cases h : a < mn
    · rw [decide_eq_true h] at hx
      exact ih ht x hx
    · rw [decide_eq_false h] at hx
      rcases List.mem_cons.mp hx with rfl | hx2
      · omega
      · have := ha x hx2
        omega

theorem sorted_takeWhile_eq_filter (mx : Nat) :
    ∀ t : List Nat, t.Pairwise (· ≤ ·) →
      t.takeWhile (fun v => decide (v ≤ mx)) = t.filter (fun v => decide (v ≤ mx)) := by
  intro t
  induction t with
  | nil => simp
  | cons b t2 ih =>
    intro hp
    rw [List.pairwise_cons] at hp
    obtain ⟨hb, ht2⟩ := hp
    by_cases h : b ≤ mx
    · simp only [List.takeWhile_cons, List.filter_cons, decide_eq_true h, if_true]
      rw [ih ht2]
    · have hnil : t2.filter (fun v => decide (v ≤ mx)) = [] := by
        rw [List.filter_eq_nil_iff]
        intro x hx
        have := hb x hx
        simp only [decide_eq_true_eq]
        omega
      simp [List.takeWhile_cons, List.filter_cons, decide_eq_false h, hnil]

theorem candidatesIn_eq_filter (mn mx : Nat) :
    ∀ sp : List Nat, sp.Pairwise (· ≤ ·) →
      PointerMap.candidatesIn sp mn mx =
        sp.filter (fun v => decide (mn ≤ v) && decide (v ≤ mx)) := by
  intro sp
  induction sp with
  | nil => simp [PointerMap.candidatesIn]
  | cons a t ih =>
    intro hp
    rw [List.pairwise_cons] at hp
    obtain ⟨ha, ht⟩ := hp
    rw [PointerMap.candidatesIn, List.dropWhile]
    by_cases h : a < mn
    · rw [decide_eq_true h, List.filter_cons]
      have hcond : (decide (mn ≤ a) && decide (a ≤ mx)) = false := by
        have h1 : decide (mn ≤ a) = false := decide_eq_false (by omega)
        simp [h1]
      rw [hcond, if_neg (by simp)]
      exact ih ht
    · rw [decide_eq_false h]
      by_cases h2 : a ≤ mx
      · rw [List.takeWhile_cons, List.filter_cons]
        have hcond : (decide (mn ≤ a) && decide (a ≤ mx)) = true := by
          have h1 : decide (mn ≤ a) = true := decide_eq_true (by omega)
          simp [h1, decide_eq_true h2]
        rw [hcond, decide_eq_true h2, if_pos rfl, if_pos rfl]
        refine congrArg _ ?_
        rw [sorted_takeWhile_eq_filter mx t ht]
        refine (List.filter_congr (fun x hx => ?_)).symm
        have := ha x hx
        have hx1 : decide (mn ≤ x) = true := decide_eq_true (by omega)
        simp [hx1]
      · rw [List.takeWhile_cons, decide_eq_false h2, if_neg (by simp)]
        have hnil : (a :: t).filter (fun v => decide (mn ≤ v) && decide (v ≤ mx)) = [] := by
          rw [List.filter_eq_nil_iff]
          intro x hx
          rcases List.mem_cons.mp hx with rfl | hx2
          · simp only [Bool.and_eq_true, decide_eq_true_eq, not_and]
            omega
          · have := ha x hx2
            simp only [Bool.and_eq_true, decide_eq_true_eq, not_and]
            omega
        rw [hnil]

/-- The selection fold keeps the first minimiser of the absolute signed
offset: the result is a minimiser and, on sorted input, any candidate with the
same absolute offset is at or above it. -/
theorem pickFold_spec (addr : Nat) :
    ∀ (l : List Nat) (c : Nat), (c :: l).Pairwise (· ≤ ·) →
      (l.foldl (fun m e =>
          if sabs (signed_diff addr e) < sabs (signed_diff addr m) then e else m) c) ∈ c :: l ∧
      (∀ e ∈ c :: l, sabs (signed_diff addr (l.foldl (fun m e =>
          if sabs (signed_diff addr e) < sabs (signed_diff addr m) then e else m) c)) ≤
        sabs (signed_diff addr e)) ∧
      (∀ e ∈ c :: l, sabs (signed_diff addr e) = sabs (signed_diff addr (l.foldl (fun m e =>
          if sabs (signed_diff addr e) < sabs (signed_diff addr m) then e else m) c)) →
        (l.foldl (fun m e =>
          if sabs (signed_diff addr e) < sabs (signed_diff addr m) then e else m) c) ≤ e) := by
  intro l
  induction l with
  | nil =>
    intro c _
    refine ⟨by simp, ?_, ?_⟩
    · intro e he
      rcases List.mem_cons.mp he with rfl | h
      · exact le_refl _
      · simp at h
    · intro e he _
      rcases List.mem_cons.mp he with rfl | h
      · exact le_refl _
      · simp at h
  | cons e2 rest ih =>
    intro c hp
    have hce : c ≤ e2 := (List.pairwise_cons.mp hp).1 e2 (List.mem_cons_self e2 rest)
    have hcrest : ∀ x ∈ rest, c ≤ x := fun x hx =>
      (List.pairwise_cons.mp hp).1 x (List.mem_cons_of_mem e2 hx)
    have he2rest : ∀ x ∈ rest, e2 ≤ x := fun x hx =>
      (List.pairwise_cons.mp (List.pairwise_cons.mp hp).2).1 x hx
    have hrest : rest.Pairwise (· ≤ ·) :=
      (List.pairwise_cons.mp (List.pairwise_cons.mp hp).2).2
    rw [List.foldl_cons]
    by_cases hbr : sabs (signed_diff addr e2) < sabs (signed_diff addr c)
    · rw [if_pos hbr]
      have hp2 : (e2 :: rest).Pairwise (· ≤ ·) := List.Pairwise.cons he2rest hrest
      obtain ⟨hm, hmin, htie⟩ := ih e2 hp2
      refine ⟨?_, ?_, ?_⟩
      · rcases List.mem_cons.mp hm with h | h
        · simp [h]
        · simp [h]
      · intro e he
        rcases List.mem_cons.mp he with rfl | he3
        · calc sabs (signed_diff addr _) ≤ sabs (signed_diff addr e2) :=
                hmin e2 (List.mem_cons_self e2 rest)
            _ ≤ sabs (signed_diff addr e) := le_of_lt hbr
        · exact hmin e he3
      · intro e he heq
        rcases List.mem_cons.mp he with rfl | he3
        · exfalso
          have h1 := hmin e2 (List.mem_cons_self e2 rest)
          omega
        · exact htie e he3 heq
    · rw [if_neg hbr]
      have hp2 : (c :: rest).Pairwise (· ≤ ·) := List.Pairwise.cons hcrest hrest
      obtain ⟨hm, hmin, htie⟩ := ih c hp2
      refine ⟨?_, ?_, ?_⟩
      · rcases List.mem_cons.mp hm with h | h
        · simp [h]
        · simp [h]
      · intro e he
        rcases List.mem_cons.mp he with h | he3
        · rw [h]
          exact hmin c (List.mem_cons_self c rest)
        · rcases List.mem_cons.mp he3 with h | he4
          · rw [h]
            have h1 := hmin c (List.mem_cons_self c rest)
            omega
          · exact hmin e (List.mem_cons_of_mem c he4)
      · intro e he heq
        rcases List.mem_cons.mp he with h | he3
        · rw [h]
          exact htie c (List.mem_cons_self c rest) (h ▸ heq)
        · rcases List.mem_cons.mp he3 with h | he4
          · rw [h] at heq
            have h1 := hmin c (List.mem_cons_self c rest)
            have h2 : sabs (signed_diff addr c) =
                sabs (signed_diff addr (rest.foldl (fun m e =>
                  if sabs (signed_diff addr e) < sabs (signed_diff addr m) then e else m) c)) := by
              omega
            rw [h]
            calc rest.foldl (fun m e =>
                  if sabs (signed_diff addr e) < sabs (signed_diff addr m) then e else m) c ≤ c :=
                htie c (List.mem_cons_self c rest) h2
              _ ≤ e2 := hce
          · exact htie e (List.mem_cons_of_mem c he4) heq

/-- The entry point chosen by one walker step lies in the window, belongs to
the entry list, and minimises the absolute signed offset; among equidistant
candidates the chosen one is the one with the smallest address. -/
theorem closestEntry_spec (addr lrange urange : Nat) (sp : List Nat)
    (hs : sp.Pairwise (· ≤ ·)) (e : Nat)
    (h : PointerMap.closestEntry addr lrange urange sp = some e) :
    (e ∈ sp ∧ addr - urange ≤ e ∧ e ≤ min (addr + lrange) (2 ^ 64 - 1)) ∧
      ∀ e2 ∈ sp, addr - urange ≤ e2 → e2 ≤ min (addr + lrange) (2 ^ 64 - 1) →
        sabs (signed_diff addr e) ≤ sabs (signed_diff addr e2) ∧
          (sabs (signed_diff addr e2) = sabs (signed_diff addr e) → e ≤ e2) := by
  rw [PointerMap.closestEntry, candidatesIn_eq_filter _ _ sp hs] at h
  set mn := addr - urange with hmn
  set mx := min (addr + lrange) (2 ^ 64 - 1) with hmx
  set P := fun v => decide (mn ≤ v) && decide (v ≤ mx) with hP
  match hc : sp.filter P with
  | [] => rw [hc] at h; simp [PointerMap.pickLoop] at h
  | c :: rest =>
    rw [hc] at h
    rw [PointerMap.pickLoop] at h
    have hsf : (c :: rest).Pairwise (· ≤ ·) := hc ▸ hs.filter P
    obtain ⟨hm, hmin, htie⟩ := pickFold_spec addr rest c hsf
    have he : e = rest.foldl (fun m e =>
        if sabs (signed_diff addr e) < sabs (signed_diff addr m) then e else m) c := by
      simpa using h.symm
    subst he
    constructor
    · have hmem : (rest.foldl (fun m e =>
          if sabs (signed_diff addr e) < sabs (signed_diff addr m) then e else m) c) ∈
            sp.filter P := hc ▸ hm
      rw [List.mem_filter] at hmem
      obtain ⟨h1, h2⟩ := hmem
      rw [hP] at h2
      simp only [Bool.and_eq_true, decide_eq_true_eq] at h2
      exact ⟨h1, h2.1, h2.2⟩
    · intro e2 he2 hlo hhi
      have he2f : e2 ∈ sp.filter P := by
        rw [List.mem_filter, hP]
        refine ⟨he2, ?_⟩
        simp only [Bool.and_eq_true, decide_eq_true_eq]
        exact ⟨hlo, hhi⟩
      rw [hc] at he2f
      exact ⟨hmin e2 he2f, htie e2 he2f⟩

/-- Offsets recorded against addresses inside the search window are exact and
bounded: `signed_diff addr x ∈ [-lrange, urange]` for
`x ∈ [addr - urange, addr + lrange]`, for window radii below 2 ^ 63. -/
theorem signed_diff_range {addr x lrange urange : Nat} (hl : lrange < 2 ^ 63)
    (hu : urange < 2 ^ 63) (h1 : addr - urange ≤ x) (h2 : x ≤ addr + lrange) :
    -(lrange : Int) ≤ signed_diff addr x ∧ signed_diff addr x ≤ (urange : Int) := by
  by_cases hc : x ≤ addr
  · rw [signed_diff_exact_le hc (by omega)]
    constructor <;> omega
  · rw [signed_diff_exact_gt (by omega) (by omega)]
    constructor <;> omega

/-- Correctness of walk_down_range: under the pointer-map invariants every
chain it emits is non-empty, dereferences correctly down to the target, and
uses only offsets inside `[-lrange, urange]`. -/
theorem walkAux_spec (mp : List (Nat × Nat)) (inv : List (Nat × List Nat))
    (sp : List Nat) (lrange urange : Nat) (m : Nat)
    (hl : lrange < 2 ^ 63) (hu : urange < 2 ^ 63)
    (hsp : sp.Pairwise (· ≤ ·))
    (hinv : ∀ t s, (t, s) ∈ inv → ∀ v ∈ s, List.lookup v mp = some t ∧ v < 2 ^ 64) :
    ∀ (fuel addr : Nat) (tmp : List (Nat × Int)), addr < 2 ^ 64 →
      (tmp.reverse = [] → addr = m) →
      (∀ b rest, tmp.reverse = b :: rest →
        List.lookup addr mp = some b.1 ∧ PointerMap.chainOkB mp (b :: rest) m = true) →
      (∀ q ∈ tmp, -(lrange : Int) ≤ q.2 ∧ q.2 ≤ (urange : Int)) →
      ∀ chain ∈ PointerMap.walkAux inv sp lrange urange fuel addr tmp,
        chain ≠ [] ∧ PointerMap.chainOkB mp chain m = true ∧
          ∀ q ∈ chain, -(lrange : Int) ≤ q.2 ∧ q.2 ≤ (urange : Int) := by
  intro fuel
  induction fuel with
  | zero =>
    intro addr tmp haddr hnil hcons htmp chain hchain
    rw [PointerMap.walkAux] at hchain
    simp only [List.append_nil] at hchain
    match hce : PointerMap.closestEntry addr lrange urange sp with
    | none => rw [hce] at hchain; simp at hchain
    | some e =>
      rw [hce] at hchain
      simp only [List.mem_singleton] at hchain
      subst hchain
      obtain ⟨⟨hesp, helo, hehi⟩, _⟩ := closestEntry_spec addr lrange urange sp hsp e hce
      have hoff : -(lrange : Int) ≤ signed_diff addr e ∧ signed_diff addr e ≤ (urange : Int) :=
        signed_diff_range hl hu helo (le_trans hehi (min_le_left _ _))
      rw [List.reverse_append, List.reverse_singleton, List.singleton_append]
      refine ⟨by simp, ?_, ?_⟩
      · match htr : tmp.reverse with
        | [] =>
          rw [PointerMap.chainOkB]
          rw [addOff_signed_diff addr e haddr, hnil htr]
          exact beq_self_eq_true m
        | b :: rest =>
          rw [PointerMap.chainOkB]
          obtain ⟨hlk, hok⟩ := hcons b rest htr
          rw [addOff_signed_diff addr e haddr, hlk, hok]
          simp
      · intro q hq
        rcases List.mem_cons.mp hq with rfl | hq2
        · exact hoff
        · exact htmp q (List.mem_reverse.mp hq2)
  | succ fuel ih =>
    intro addr tmp haddr hnil hcons htmp chain hchain
    rw [PointerMap.walkAux] at hchain
    rcases List.mem_append.mp hchain with hbase | hrec
    · -- the chain emitted at this level, identical to the fuel-zero case
      match hce : PointerMap.closestEntry addr lrange urange sp with
      | none => rw [hce] at hbase; simp at hbase
      | some e =>
        rw [hce] at hbase
        simp only [List.mem_singleton] at hbase
        subst hbase
        obtain ⟨⟨hesp, helo, hehi⟩, _⟩ := closestEntry_spec addr lrange urange sp hsp e hce
        have hoff : -(lrange : Int) ≤ signed_diff addr e ∧ signed_diff addr e ≤ (urange : Int) :=
          signed_diff_range hl hu helo (le_trans hehi (min_le_left _ _))
        rw [List.reverse_append, List.reverse_singleton, List.singleton_append]
        refine ⟨by simp, ?_, ?_⟩
        · match htr : tmp.reverse with
          | [] =>
            rw [PointerMap.chainOkB]
            rw [addOff_signed_diff addr e haddr, hnil htr]
            exact beq_self_eq_true m
          | b :: rest =>
            rw [PointerMap.chainOkB]
            obtain ⟨hlk, hok⟩ := hcons b rest htr
            rw [addOff_signed_diff addr e haddr, hlk, hok]
            simp
        · intro q hq
          rcases List.mem_cons.mp hq with rfl | hq2
          · exact hoff
          · exact htmp q (List.mem_reverse.mp hq2)
    · -- a chain produced by recursing through an inverse-map entry
      rw [List.mem_flatMap] at hrec
      obtain ⟨p, hp, hchain2⟩ := hrec
      rw [List.mem_flatMap] at hchain2
      obtain ⟨v, hv, hchain3⟩ := hchain2
      rw [List.mem_filter] at hp
      obtain ⟨hpinv, hpcond⟩ := hp
      simp only [Bool.and_eq_true, decide_eq_true_eq] at hpcond
      obtain ⟨hklo, hkhi⟩ := hpcond
      obtain ⟨hvlk, hv64⟩ := hinv p.1 p.2 (by
        have : p = (p.1, p.2) := rfl
        rw [← this]; exact hpinv) v hv
      have hkoff : -(lrange : Int) ≤ signed_diff addr p.1 ∧
          signed_diff addr p.1 ≤ (urange : Int) :=
        signed_diff_range hl hu hklo (le_trans hkhi (min_le_left _ _))
      refine ih v (tmp ++ [(p.1, signed_diff addr p.1)]) hv64 ?_ ?_ ?_ chain hchain3
      · intro htr
        rw [List.reverse_append, List.reverse_singleton, List.singleton_append] at htr
        simp at htr
      · intro b rest htr
        rw [List.reverse_append, List.reverse_singleton, List.singleton_append] at htr
        injection htr with hb hrest
        subst hb
        refine ⟨hvlk, ?_⟩
        match htr2 : tmp.reverse with
        | [] =>
          rw [← hrest, htr2, PointerMap.chainOkB]
          rw [addOff_signed_diff addr p.1 haddr, hnil htr2]
          exact beq_self_eq_true m
        | b2 :: rest2 =>
          rw [← hrest, htr2, PointerMap.chainOkB]
          obtain ⟨hlk, hok⟩ := hcons b2 rest2 htr2
          rw [addOff_signed_diff addr p.1 haddr, hlk, hok]
          simp
      · intro q hq
        rcases List.mem_append.mp hq with hq1 | hq2
        · exact htmp q hq1
        · simp only [List.mem_singleton] at hq2
          subst hq2
          exact hkoff

/-- Duplicate counting of the signature maker, characterised per window
address. -/
theorem dupCount_char (mem : Nat → Nat) (ranges : List (Nat × Nat)) (s : Sigstate) :
    Sigmaker.dupCount mem ranges s =
      (ranges.map (fun r =>
        ((strideOffs r.2).map (fun off =>
          (List.range 0x1000).countP (fun o =>
            Sigmaker.maskedEq (readBytes mem (r.1 + off + o) Sigmaker.MAX_SIG_LENGTH)
                s.buf s.mask &&
              decide (¬r.1 + off + o = s.start_ip)))).sum)).sum := by
  rw [Sigmaker.dupCount]
  refine congrArg _ (List.map_congr_left (fun r _ => ?_))
  refine congrArg _ (List.map_congr_left (fun off _ => ?_))
  rw [windowsEnum_char mem Sigmaker.MAX_SIG_LENGTH (0x1000 + Sigmaker.MAX_SIG_LENGTH - 1)
      0x1000 (r.1 + off) (by decide) (by decide), List.countP_map]
  rfl

/-- A signature with zero duplicate matches masked-matches no scanned window
address other than its own start ip, and conversely. -/
theorem dupCount_eq_zero_iff (mem : Nat → Nat) (ranges : List (Nat × Nat)) (s : Sigstate) :
    Sigmaker.dupCount mem ranges s = 0 ↔
      ∀ r ∈ ranges, ∀ off ∈ strideOffs r.2, ∀ o ∈ List.range 0x1000,
        r.1 + off + o ≠ s.start_ip →
          Sigmaker.maskedEq (readBytes mem (r.1 + off + o) Sigmaker.MAX_SIG_LENGTH)
            s.buf s.mask = false := by
  rw [dupCount_char, List.sum_eq_zero_iff]
  constructor
  · intro h r hr off hoff o ho hne
    have h1 := h _ (List.mem_map_of_mem _ hr)
    rw [List.sum_eq_zero_iff] at h1
    have h2 := h1 _ (List.mem_map_of_mem _ hoff)
    rw [List.countP_eq_zero] at h2
    have h3 := h2 o ho
    simp only [Bool.and_eq_true, decide_eq_true_eq, not_and] at h3
    rcases Bool.eq_false_or_eq_true (Sigmaker.maskedEq
      (readBytes mem (r.1 + off + o) Sigmaker.MAX_SIG_LENGTH) s.buf s.mask) with ht | hf
    · exact absurd hne (h3 ht)
    · exact hf
  · intro h x hx
    rw [List.mem_map] at hx
    obtain ⟨r, hr, rfl⟩ := hx
    rw [List.sum_eq_zero_iff]
    intro y hy
    rw [List.mem_map] at hy
    obtain ⟨off, hoff, rfl⟩ := hy
    rw [List.countP_eq_zero]
    intro o ho
    simp only [Bool.and_eq_true, decide_eq_true_eq, not_and]
    intro hmeq hne
    have := h r hr off hoff o ho hne
    rw [this] at hmeq
    exact absurd hmeq (by simp)

theorem maskedEq_self (w mask : List Nat) : Sigmaker.maskedEq w w mask = true := by
  rw [Sigmaker.maskedEq]
  exact beq_self_eq_true _

/-- Every string emitted by the find_sigs loop is the rendering of a state
whose start ip and buffer come from the initial states (decoding only extends
the mask) and whose duplicate count is zero. -/
theorem find_sigs_loop_spec (mem : Nat → Nat) (ranges : List (Nat × Nat))
    (step : Sigstate → Option (List Nat)) (Pst : Nat → List Nat → Prop) :
    ∀ (fuel : Nat) (states : List Sigstate), (∀ s ∈ states, Pst s.start_ip s.buf) →
      ∀ str ∈ Sigmaker.find_sigs_loop mem ranges step fuel states,
        ∃ s : Sigstate, Pst s.start_ip s.buf ∧ Sigmaker.dupCount mem ranges s = 0 ∧
          str = Sigmaker.bytes_to_string s.buf s.mask := by
  intro fuel
  induction fuel with
  | zero => intro states _ str hstr; rw [Sigmaker.find_sigs_loop] at hstr; simp at hstr
  | succ fuel ih =>
    intro states hP str hstr
    rw [Sigmaker.find_sigs_loop] at hstr
    have hP2 : ∀ s2 ∈ states.map (fun s => (Sigmaker.add_single_instr step s).getD s),
        Pst s2.start_ip s2.buf := by
      intro s2 hs2
      rw [List.mem_map] at hs2
      obtain ⟨s, hs, rfl⟩ := hs2
      rw [Sigmaker.add_single_instr]
      match step s with
      | none => exact hP s hs
      | some ext => exact hP s hs
    by_cases hadd : states.any (fun s => (Sigmaker.add_single_instr step s).isSome)
    · rw [if_pos hadd] at hstr
      by_cases huniq : (Sigmaker.has_unique_matches mem ranges
          (states.map (fun s => (Sigmaker.add_single_instr step s).getD s))).1
      · rw [if_pos huniq] at hstr
        rw [Sigmaker.has_unique_matches] at hstr
        simp only at hstr
        rw [List.mem_map] at hstr
        obtain ⟨s, hs, rfl⟩ := hstr
        rw [List.mem_filter] at hs
        obtain ⟨hs2, hdup⟩ := hs
        refine ⟨s, hP2 s hs2, ?_, rfl⟩
        simpa using hdup
      · rw [if_neg huniq] at hstr
        exact ih _ hP2 str hstr
    · rw [if_neg hadd] at hstr
      simp at hstr

/-- The BTreeMap built by create_map has strictly sorted keys, and its derived
inverse map mirrors it: every recorded source address looks up to its target
and is a valid 64-bit address. -/
theorem create_map_invariants (mem : Nat → Nat) (status : Nat → RdStat)
    (ranges : List (Nat × Nat)) (size_addr : Nat) (pm : PointerMap)
    (hsa : 1 ≤ size_addr) (hr64 : ∀ r ∈ ranges, r.1 + r.2 + 0x1000 ≤ 2 ^ 64)
    (h : PointerMap.create_map mem status ranges size_addr = Except.ok pm) :
    pm.map.Pairwise (fun p q => p.1 < q.1) ∧
      ∀ t s, (t, s) ∈ pm.inverse_map → ∀ v ∈ s,
        List.lookup v pm.map = some t ∧ v < 2 ^ 64 := by
  rw [PointerMap.create_map] at h
  injection h with h
  subst h
  simp only
  set pairs := ranges.flatMap (fun r => (strideOffs r.2).flatMap (fun off =>
    if (status (r.1 + off)).proceeds then PointerMap.stridePtrs mem ranges size_addr r.1 off
    else [])) with hpairs
  have hkeys : ∀ kv ∈ pairs, kv.1 < 2 ^ 64 := by
    intro kv hkv
    rw [hpairs, List.mem_flatMap] at hkv
    obtain ⟨r, hr, hkv1⟩ := hkv
    rw [List.mem_flatMap] at hkv1
    obtain ⟨off, hoff, hkv2⟩ := hkv1
    have hofflt := strideOffs_lt_size off hoff
    by_cases hpr : (status (r.1 + off)).proceeds
    · rw [if_pos hpr, stridePtrs_char mem ranges size_addr r.1 off hsa,
        List.mem_filterMap] at hkv2
      obtain ⟨o, ho, hkv3⟩ := hkv2
      rw [List.mem_range] at ho
      by_cases hin : inRanges ranges (leVal (readBytes mem (r.1 + off + o) size_addr))
      · rw [if_pos hin] at hkv3
        cases hkv3
        have := hr64 r hr
        simp only
        omega
      · rw [if_neg hin] at hkv3
        cases hkv3
    · rw [if_neg hpr] at hkv2
      cases hkv2
  have hsorted : (pairs.foldl btreeInsert []).Pairwise (fun p q => p.1 < q.1) :=
    foldl_btreeInsert_pairwise pairs [] (by simp)
  have hmapkeys : ∀ q ∈ pairs.foldl btreeInsert [], q.1 < 2 ^ 64 :=
    foldl_btreeInsert_keys (fun k => k < 2 ^ 64) pairs [] hkeys (by simp)
  refine ⟨hsorted, ?_⟩
  intro t s hts v hv
  have hmem : (v, t) ∈ pairs.foldl btreeInsert [] := by
    refine foldl_addEdge_sources (fun x t2 => (x, t2) ∈ pairs.foldl btreeInsert [])
      (pairs.foldl btreeInsert []) [] ?_ (by simp) t s hts v hv
    intro kv _
    simpa using ‹kv ∈ pairs.foldl btreeInsert []›
  exact ⟨lookup_eq_of_mem _ hsorted v t hmem, hmapkeys (v, t) hmem⟩

/-! Claim theorems. -/

/-- Claim C5, counterexample: the claim states that signed_diff(a, b) is
non-negative whenever a ≥ b, but at a = 2 ^ 63 and b = 0 the `as isize` cast
wraps and the result is the negative value -(2 ^ 63). -/
theorem spec_c5_counterexample :
    (0 : Nat) ≤ 2 ^ 63 ∧ signed_diff (2 ^ 63) 0 = -(2 ^ 63) ∧
      ¬(0 ≤ signed_diff (2 ^ 63) 0) := by
  refine ⟨by omega, ?_, ?_⟩
  · rw [signed_diff, if_pos (by omega), toInt64]
    norm_num
  · rw [signed_diff, if_pos (by omega), toInt64]
    norm_num

/-- Claim C5 (amended): for every pair of addresses, signed_diff(a, b) is
non-negative when a ≥ b and the difference is below 2 ^ 63, and equals
-(b - a) when a < b and that difference is below 2 ^ 63; outside these bands
the isize cast wraps. -/
theorem spec_c5_signed_diff_amended (a b : Nat) :
    (b ≤ a ∧ a - b < 2 ^ 63 → 0 ≤ signed_diff a b ∧ signed_diff a b = (a : Int) - b) ∧
      (a < b ∧ b - a < 2 ^ 63 → signed_diff a b = -((b : Int) - a)) := by
  constructor
  · intro ⟨h1, h2⟩
    rw [signed_diff_exact_le h1 h2]
    constructor <;> omega
  · intro ⟨h1, h2⟩
    exact signed_diff_exact_gt h1 h2

/-- Claim C5, witness: the amended theorem applied at (5, 3) and (3, 5). -/
theorem spec_c5_witness :
    (0 ≤ signed_diff 5 3 ∧ signed_diff 5 3 = (5 : Int) - 3) ∧
      signed_diff 3 5 = -((5 : Int) - 3) :=
  ⟨(spec_c5_signed_diff_amended 5 3).1 (by omega),
    (spec_c5_signed_diff_amended 3 5).2 (by omega)⟩

/-- Claim C4, counterexample: with entry points 90 and 110 both at absolute
distance 10 from address 100 and both inside the window, the walker selects
90, the lower of the two equidistant candidates, not the higher as claimed. -/
theorem spec_c4_counterexample :
    PointerMap.closestEntry 100 10 10 [90, 110] = some 90 ∧
      sabs (signed_diff 100 90) = sabs (signed_diff 100 110) ∧ ¬(90 : Nat) = 110 := by
  refine ⟨by decide, by decide, by decide⟩

/-- Claim C4 (amended): among the entry points in
[addr - urange, addr + lrange] the single closest one by absolute signed
offset is selected, and when two candidates are equidistant the tie breaks
toward the candidate at the lower address (the positive signed offset, as the
source comment notes). -/
theorem spec_c4_tiebreak_amended (addr lrange urange : Nat) (sp : List Nat)
    (hs : sp.Pairwise (· ≤ ·)) (e : Nat)
    (h : PointerMap.closestEntry addr lrange urange sp = some e) :
    (e ∈ sp ∧ addr - urange ≤ e ∧ e ≤ min (addr + lrange) (2 ^ 64 - 1)) ∧
      ∀ e2 ∈ sp, addr - urange ≤ e2 → e2 ≤ min (addr + lrange) (2 ^ 64 - 1) →
        sabs (signed_diff addr e) ≤ sabs (signed_diff addr e2) ∧
          (sabs (signed_diff addr e2) = sabs (signed_diff addr e) → e ≤ e2) :=
  closestEntry_spec addr lrange urange sp hs e h

/-- Claim C4, witness: the amended theorem at the concrete equidistant pair. -/
theorem spec_c4_witness :
    ((90 ∈ [90, 110] ∧ 100 - 10 ≤ 90 ∧ 90 ≤ min (100 + 10) (2 ^ 64 - 1)) ∧
      ∀ e2 ∈ [90, 110], 100 - 10 ≤ e2 → e2 ≤ min (100 + 10) (2 ^ 64 - 1) →
        sabs (signed_diff 100 90) ≤ sabs (signed_diff 100 e2) ∧
          (sabs (signed_diff 100 e2) = sabs (signed_diff 100 90) → 90 ≤ e2)) :=
  spec_c4_tiebreak_amended 100 10 10 [90, 110] (by decide) 90 (by decide)

/-- Claim C3, counterexample: with range = (lrange, urange) = (0, 8) the
walker accepts the entry 92 below the target 100 and emits the offset +8,
which lies in [-lrange, urange] = [0, 8] but not in [-urange, lrange] =
[-8, 0] as the claim states. -/
theorem spec_c3_counterexample :
    PointerMap.create_map (fun _ => 0) (fun _ => RdStat.fatal) [(0, 16)] 8 =
      Except.ok ⟨[], [], []⟩ ∧
    PointerMap.find_matches_addrs ⟨[], [], []⟩ 0 8 1 [100] [92] = [(100, [(92, 8)])] ∧
    ¬(-(8 : Int) ≤ 8 ∧ (8 : Int) ≤ 0) := by
  refine ⟨by rfl, by decide, by decide⟩

/-- Claim C3 (amended): every chain returned by find_matches_addrs on a
pointer map built by create_map dereferences through the forward map at every
intermediate step, its last step lands arithmetically on the searched-for
target, and every offset lies in [-lrange, urange] (the claim had the interval
ends swapped).  Entry points are assumed sorted ascending (pointer lists and
global lists are), window radii fit an isize, and addresses are 64-bit. -/
theorem spec_c3_chain_validity_amended (mem : Nat → Nat) (status : Nat → RdStat)
    (ranges : List (Nat × Nat)) (size_addr : Nat) (lrange urange max_depth : Nat)
    (search_for entry_points : List Nat) (pm : PointerMap)
    (hsa : 1 ≤ size_addr) (hr64 : ∀ r ∈ ranges, r.1 + r.2 + 0x1000 ≤ 2 ^ 64)
    (hl : lrange < 2 ^ 63) (hu : urange < 2 ^ 63)
    (hsp : entry_points.Pairwise (· ≤ ·)) (hm64 : ∀ x ∈ search_for, x < 2 ^ 64)
    (hpm : PointerMap.create_map mem status ranges size_addr = Except.ok pm) :
    ∀ mc ∈ PointerMap.find_matches_addrs pm lrange urange max_depth search_for entry_points,
      mc.2 ≠ [] ∧ PointerMap.chainOkB pm.map mc.2 mc.1 = true ∧
        ∀ q ∈ mc.2, -(lrange : Int) ≤ q.2 ∧ q.2 ≤ (urange : Int) := by
  obtain ⟨hsorted, hmirror⟩ :=
    create_map_invariants mem status ranges size_addr pm hsa hr64 hpm
  intro mc hmc
  rw [PointerMap.find_matches_addrs, List.mem_flatMap] at hmc
  obtain ⟨m, hm, hmc2⟩ := hmc
  rw [List.mem_map] at hmc2
  obtain ⟨chain, hchain, rfl⟩ := hmc2
  have hspec := walkAux_spec pm.map pm.inverse_map entry_points lrange urange m hl hu hsp
    hmirror (max_depth - 1) m [] (hm64 m hm) (fun _ => rfl) (fun b rest hbr => by simp at hbr)
    (fun q hq => by simp at hq) chain hchain
  exact hspec

/-- Claim C3, witness: a one-step chain produced from a concrete (empty)
pointer map, with lrange = 0 and urange = 8. -/
theorem spec_c3_witness :
    PointerMap.create_map (fun _ => 0) (fun _ => RdStat.fatal) [(0, 32)] 8 =
      Except.ok ⟨[], [], []⟩ ∧
    ∀ mc ∈ PointerMap.find_matches_addrs ⟨[], [], []⟩ 0 8 1 [100] [92],
      mc.2 ≠ [] ∧ PointerMap.chainOkB (⟨[], [], []⟩ : PointerMap).map mc.2 mc.1 = true ∧
        ∀ q ∈ mc.2, -((0 : Nat) : Int) ≤ q.2 ∧ q.2 ≤ ((8 : Nat) : Int) :=
  ⟨by rfl,
    spec_c3_chain_validity_amended (fun _ => 0) (fun _ => RdStat.fatal) [(0, 32)] 8 0 8 1
      [100] [92] ⟨[], [], []⟩ (by decide) (by decide) (by decide) (by decide) (by decide)
      (by decide) (by rfl)⟩

/-- Claim C6, counterexample: the claim states that fatal memory-layer errors
abort the sweep with an error result, but with every stride read failing
fatally both scan_for and create_map still complete with Ok, silently
skipping every region (`.data_part().ok()?` discards hard errors). -/
theorem spec_c6_counterexample :
    (RdStat.fatal.proceeds = false) ∧
    ValueScanner.scan_for (fun _ => 0) (fun _ => RdStat.fatal) [(0, 0x1000)]
        ValueScanner.canonicalSched ⟨false, [], []⟩ [1] =
      some (Except.ok ⟨true, [], [(0, 0x1000)]⟩) ∧
    PointerMap.create_map (fun _ => 0) (fun _ => RdStat.fatal) [(0, 0x1000)] 8 =
      Except.ok ⟨[], [], []⟩ := by
  refine ⟨rfl, by rfl, by rfl⟩

/-- Claim C6 (amended): in the parallel sweeps of ValueScanner::scan_for and
PointerMap::create_map, data-only read errors are tolerated (the partially
read stride is still scanned) and hard errors cause the stride to be skipped;
neither kind aborts: both operations always return Ok (scan_for whenever its
pattern is non-empty, which excludes the unrelated empty-pattern panic). -/
theorem spec_c6_errors_amended :
    (∀ (mem : Nat → Nat) (status : Nat → RdStat) (ranges : List (Nat × Nat))
        (sched : Nat × Nat → List Nat) (vs : ValueScanner) (data : List Nat), data ≠ [] →
      ∃ vs2, ValueScanner.scan_for mem status ranges sched vs data =
        some (Except.ok vs2)) ∧
    (∀ (mem : Nat → Nat) (status : Nat → RdStat) (ranges : List (Nat × Nat))
        (size_addr : Nat),
      ∃ pm, PointerMap.create_map mem status ranges size_addr = Except.ok pm) := by
  constructor
  · intro mem status ranges sched vs data hd
    rw [ValueScanner.scan_for]
    by_cases hs : vs.scanned = false
    · rw [if_pos hs, if_neg (fun hc => hd hc.1)]
      exact ⟨_, rfl⟩
    · rw [if_neg hs]
      exact ⟨_, rfl⟩
  · intro mem status ranges size_addr
    exact ⟨_, rfl⟩

/-- Claim C6, witness: a data-error run of both sweeps completes with Ok. -/
theorem spec_c6_witness :
    (∃ vs2, ValueScanner.scan_for (fun _ => 0) (fun _ => RdStat.dataErr) [(0, 0x1000)]
        ValueScanner.canonicalSched ⟨true, [], []⟩ [1] = some (Except.ok vs2)) ∧
    ∃ pm, PointerMap.create_map (fun _ => 0) (fun _ => RdStat.dataErr) [] 8 =
      Except.ok pm :=
  ⟨spec_c6_errors_amended.1 (fun _ => 0) (fun _ => RdStat.dataErr) [(0, 0x1000)]
      ValueScanner.canonicalSched ⟨true, [], []⟩ [1] (by decide),
    spec_c6_errors_amended.2 (fun _ => 0) (fun _ => RdStat.dataErr) [] 8⟩

/-- Claim C7: on an already-scanned state with a non-empty pattern, scan_for
takes the filter path; the new match list is exactly the old one restricted to
the addresses whose current window equals the pattern, hence a subset. -/
theorem spec_c7_filter_refinement (mem : Nat → Nat) (status : Nat → RdStat)
    (ranges : List (Nat × Nat)) (sched : Nat × Nat → List Nat) (vs : ValueScanner)
    (data : List Nat) (vs2 : ValueScanner)
    (hs : vs.scanned = true) (hd : data ≠ [])
    (h : ValueScanner.scan_for mem status ranges sched vs data = some (Except.ok vs2)) :
    vs2.matches' = vs.matches'.filter (fun a => readBytes mem a data.length == data) ∧
      vs2.matches' ⊆ vs.matches' ∧
      ∀ a, a ∈ vs2.matches' ↔ a ∈ vs.matches' ∧ readBytes mem a data.length = data := by
  rw [ValueScanner.scan_for, if_neg (by rw [hs]; simp)] at h
  injection h with h
  injection h with h
  have hm : vs2.matches' = ValueScanner.refineMatches mem vs.matches' data := by
    rw [← h]
  rw [refineMatches_eq, if_neg hd] at hm
  refine ⟨hm, ?_, ?_⟩
  · rw [hm]
    exact fun a ha => (List.mem_filter.mp ha).1
  · intro a
    rw [hm, List.mem_filter]
    constructor
    · intro ⟨h1, h2⟩
      exact ⟨h1, by simpa using h2⟩
    · intro ⟨h1, h2⟩
      exact ⟨h1, by simpa using h2⟩

/-- Claim C7, witness: refiltering the matches 5 and 9 against a memory where
only address 5 still holds the pattern keeps exactly 5. -/
theorem spec_c7_witness :
    ((⟨true, [5, 9], []⟩ : ValueScanner).scanned = true) ∧
    ((⟨true, [5], []⟩ : ValueScanner).matches' =
        (⟨true, [5, 9], []⟩ : ValueScanner).matches'.filter
          (fun a => readBytes (fun x => if x = 5 then 1 else 0) a [1].length == [1]) ∧
      (⟨true, [5], []⟩ : ValueScanner).matches' ⊆
        (⟨true, [5, 9], []⟩ : ValueScanner).matches' ∧
      ∀ a, a ∈ (⟨true, [5], []⟩ : ValueScanner).matches' ↔
        a ∈ (⟨true, [5, 9], []⟩ : ValueScanner).matches' ∧
          readBytes (fun x => if x = 5 then 1 else 0) a [1].length = [1]) :=
  ⟨rfl,
    spec_c7_filter_refinement (fun x => if x = 5 then 1 else 0) (fun _ => RdStat.ok) []
      ValueScanner.canonicalSched ⟨true, [5, 9], []⟩ [1] ⟨true, [5], []⟩ rfl (by decide)
      (by rw [ValueScanner.scan_for, if_neg (by simp), refineMatches_eq, if_neg (by decide)]
          rfl)⟩

/-- Claim C8: on an already-scanned state the empty pattern takes the
refinement path and leaves the match list empty. -/
theorem spec_c8_empty_refinement (mem : Nat → Nat) (status : Nat → RdStat)
    (ranges : List (Nat × Nat)) (sched : Nat × Nat → List Nat) (vs : ValueScanner)
    (hs : vs.scanned = true) :
    ValueScanner.scan_for mem status ranges sched vs [] =
      some (Except.ok ⟨vs.scanned, [], vs.mem_map⟩) := by
  rw [ValueScanner.scan_for, if_neg (by rw [hs]; simp)]
  rw [refineMatches_eq, if_pos rfl]

/-- Claim C8, witness: the theorem applied to a concrete scanned state. -/
theorem spec_c8_witness :
    ((⟨true, [7, 9], [(0, 16)]⟩ : ValueScanner).scanned = true) ∧
    ValueScanner.scan_for (fun _ => 0) (fun _ => RdStat.ok) [] ValueScanner.canonicalSched
        ⟨true, [7, 9], [(0, 16)]⟩ [] =
      some (Except.ok ⟨true, [], [(0, 16)]⟩) :=
  ⟨rfl,
    spec_c8_empty_refinement (fun _ => 0) (fun _ => RdStat.ok) []
      ValueScanner.canonicalSched ⟨true, [7, 9], [(0, 16)]⟩ rfl⟩

/-- Claim C10: on a not-yet-scanned scanner the empty pattern takes the
initial-sweep path, whose per-stride buffer is slid with windows of width
zero; slice::windows(0) panics, so the sweep aborts as soon as one stride read
proceeds, and when no stride read proceeds it completes with an empty match
list. -/
theorem spec_c10_empty_initial_panic (mem : Nat → Nat) (status : Nat → RdStat)
    (ranges : List (Nat × Nat)) (sched : Nat × Nat → List Nat) (vs : ValueScanner)
    (hs : vs.scanned = false) :
    ((∃ r ∈ ranges, ∃ off ∈ sched r, (status (r.1 + off)).proceeds = true) →
      ValueScanner.scan_for mem status ranges sched vs [] = none) ∧
    ((∀ r ∈ ranges, ∀ off ∈ sched r, (status (r.1 + off)).proceeds = false) →
      ValueScanner.scan_for mem status ranges sched vs [] =
        some (Except.ok ⟨true, [], ranges⟩)) := by
  constructor
  · intro ⟨r, hr, off, hoff, hpr⟩
    rw [ValueScanner.scan_for, if_pos hs, if_pos ?_]
    refine ⟨rfl, ?_⟩
    rw [List.any_eq_true]
    exact ⟨r, hr, by rw [List.any_eq_true]; exact ⟨off, hoff, hpr⟩⟩
  · intro hall
    rw [ValueScanner.scan_for, if_pos hs, if_neg ?_]
    · have hmt : ValueScanner.initMatches mem status ranges sched [] = [] := by
        rw [ValueScanner.initMatches, List.flatMap_eq_nil_iff]
        intro r hr
        rw [List.flatMap_eq_nil_iff]
        intro off hoff
        rw [if_neg (by rw [hall r hr off hoff]; simp)]
      rw [hmt]
    · intro ⟨_, hany⟩
      rw [List.any_eq_true] at hany
      obtain ⟨r, hr, hany2⟩ := hany
      rw [List.any_eq_true] at hany2
      obtain ⟨off, hoff, hpr⟩ := hany2
      rw [hall r hr off hoff] at hpr
      exact absurd hpr (by simp)

/-- Claim C10, witness: one readable stride makes the empty-pattern initial
sweep abort; an all-fatal map completes with no matches. -/
theorem spec_c10_witness :
    ((⟨false, [], []⟩ : ValueScanner).scanned = false) ∧
    ValueScanner.scan_for (fun _ => 0) (fun _ => RdStat.ok) [(0, 0x1000)]
        ValueScanner.canonicalSched ⟨false, [], []⟩ [] = none :=
  ⟨rfl,
    (spec_c10_empty_initial_panic (fun _ => 0) (fun _ => RdStat.ok) [(0, 0x1000)]
        ValueScanner.canonicalSched ⟨false, [], []⟩ rfl).1
      ⟨(0, 0x1000), by decide, 0, by decide, rfl⟩⟩

/-- Evaluation form of the initial sweep, with every stride characterised by
direct per-window reads (used to compute concrete sweeps). -/
theorem initMatches_eval (mem : Nat → Nat) (status : Nat → RdStat)
    (ranges : List (Nat × Nat)) (sched : Nat × Nat → List Nat) (data : List Nat)
    (hd : data ≠ []) :
    ValueScanner.initMatches mem status ranges sched data =
      ranges.flatMap (fun r => (sched r).flatMap (fun off =>
        if (status (r.1 + off)).proceeds then
          (List.range 0x1000).filterMap (fun o =>
            if readBytes mem (r.1 + off + o) data.length = data then some (r.1 + off + o)
            else none)
        else [])) := by
  rw [ValueScanner.initMatches]
  refine congrArg (List.flatMap ranges) (funext (fun r => ?_))
  refine congrArg (List.flatMap (sched r)) (funext (fun off => ?_))
  by_cases hpr : (status (r.1 + off)).proceeds
  · rw [if_pos hpr, if_pos hpr, strideMatches_char mem data r.1 off hd]
  · rw [if_neg hpr, if_neg hpr]

/-- Claim C2, counterexample: the initial sweep concatenates stride results in
the completion order of the rayon par_bridge, which guarantees no ordering; a
legal schedule that drains the second 4 KiB stride before the first produces
the match list [0x1005, 5], which is not sorted ascending even though both
strides succeeded.  The code never sorts matches afterwards. -/
theorem spec_c2_counterexample :
    (([0x1000, 0] : List Nat).Perm (strideOffs 0x2000)) ∧
    ValueScanner.scan_for (fun a => if a = 5 ∨ a = 0x1005 then 1 else 0)
        (fun _ => RdStat.ok) [(0, 0x2000)] (fun _ => [0x1000, 0]) ⟨false, [], []⟩ [1] =
      some (Except.ok ⟨true, [0x1005, 5], [(0, 0x2000)]⟩) ∧
    ¬([0x1005, 5] : List Nat).Pairwise (· ≤ ·) := by
  refine ⟨by decide, ?_, by decide⟩
  rw [ValueScanner.scan_for, if_pos rfl, if_neg (fun hc => absurd hc.1 (by decide))]
  rw [initMatches_eval _ _ _ _ _ (by decide)]
  rfl

/-- Claim C2 (amended): after the initial sweep the match list is always
duplicate-free, and it is sorted ascending when the parallel strides complete
in canonical (ascending) order — the code does not enforce that order across
the par_bridge.  Refinement calls preserve both duplicate-freedom and
sortedness. -/
theorem spec_c2_matches_amended (mem : Nat → Nat) (status : Nat → RdStat)
    (ranges : List (Nat × Nat)) (sched : Nat × Nat → List Nat) (data : List Nat)
    (vs2 : ValueScanner) (hd : data ≠ [])
    (hperm : ∀ r ∈ ranges, (sched r).Perm (strideOffs r.2))
    (hgap : ranges.Pairwise (fun r r2 => r.1 + r.2 + 0x1000 ≤ r2.1))
    (h : ValueScanner.scan_for mem status ranges sched ⟨false, [], []⟩ data =
      some (Except.ok vs2)) :
    vs2.matches'.Nodup ∧
      (sched = ValueScanner.canonicalSched → vs2.matches'.Pairwise (· < ·)) ∧
      ∀ (mem2 : Nat → Nat) (data2 : List Nat) (vs3 : ValueScanner),
        ValueScanner.scan_for mem2 status ranges sched vs2 data2 = some (Except.ok vs3) →
          vs3.matches'.Nodup ∧
            (vs2.matches'.Pairwise (· < ·) → vs3.matches'.Pairwise (· < ·)) := by
  rw [ValueScanner.scan_for, if_pos rfl, if_neg (fun hc => hd hc.1)] at h
  injection h with h
  injection h with h
  have hm2 : vs2.matches' = ValueScanner.initMatches mem status ranges sched data := by
    rw [← h]
  have hs2 : vs2.scanned = true := by rw [← h]
  have hcanon : (ValueScanner.initMatches mem status ranges
      ValueScanner.canonicalSched data).Pairwise (· < ·) :=
    initMatches_canonical_pairwise mem status ranges data hd hgap
  have hnd : vs2.matches'.Nodup := by
    rw [hm2]
    have hperm2 := initMatches_perm mem status ranges sched data hperm
    rw [hperm2.nodup_iff]
    exact hcanon.nodup
  refine ⟨hnd, ?_, ?_⟩
  · intro hsched
    rw [hm2, hsched]
    exact hcanon
  · intro mem2 data2 vs3 h3
    rw [ValueScanner.scan_for, if_neg (by rw [hs2]; simp)] at h3
    injection h3 with h3
    injection h3 with h3
    have hm3 : vs3.matches' = ValueScanner.refineMatches mem2 vs2.matches' data2 := by
      rw [← h3]
    rw [refineMatches_eq] at hm3
    by_cases hd2 : data2 = []
    · rw [if_pos hd2] at hm3
      rw [hm3]
      exact ⟨List.nodup_nil, fun _ => List.Pairwise.nil⟩
    · rw [if_neg hd2] at hm3
      rw [hm3]
      exact ⟨hnd.filter _, fun hp => hp.filter _⟩

/-- Claim C2, witness: a canonical-schedule sweep over one range with a single
match produces the sorted duplicate-free list [7]; refiltering it keeps it
sorted and duplicate-free. -/
theorem spec_c2_witness :
    ValueScanner.scan_for (fun a => if a = 7 then 37 else 0) (fun _ => RdStat.ok)
        [(0, 0x1000)] ValueScanner.canonicalSched ⟨false, [], []⟩ [37] =
      some (Except.ok ⟨true, [7], [(0, 0x1000)]⟩) ∧
    (((⟨true, [7], [(0, 0x1000)]⟩ : ValueScanner).matches').Nodup ∧
      (ValueScanner.canonicalSched = ValueScanner.canonicalSched →
        ((⟨true, [7], [(0, 0x1000)]⟩ : ValueScanner).matches').Pairwise (· < ·)) ∧
      ∀ (mem2 : Nat → Nat) (data2 : List Nat) (vs3 : ValueScanner),
        ValueScanner.scan_for mem2 (fun _ => RdStat.ok) [(0, 0x1000)]
            ValueScanner.canonicalSched ⟨true, [7], [(0, 0x1000)]⟩ data2 =
          some (Except.ok vs3) →
          vs3.matches'.Nodup ∧
            (((⟨true, [7], [(0, 0x1000)]⟩ : ValueScanner).matches').Pairwise (· < ·) →
              vs3.matches'.Pairwise (· < ·))) := by
  have h : ValueScanner.scan_for (fun a => if a = 7 then 37 else 0) (fun _ => RdStat.ok)
      [(0, 0x1000)] ValueScanner.canonicalSched ⟨false, [], []⟩ [37] =
      some (Except.ok ⟨true, [7], [(0, 0x1000)]⟩) := by
    rw [ValueScanner.scan_for, if_pos rfl, if_neg (fun hc => absurd hc.1 (by decide))]
    rw [initMatches_eval _ _ _ _ _ (by decide)]
    rfl
  exact ⟨h, spec_c2_matches_amended (fun a => if a = 7 then 37 else 0) (fun _ => RdStat.ok)
    [(0, 0x1000)] ValueScanner.canonicalSched [37] ⟨true, [7], [(0, 0x1000)]⟩ (by decide)
    (fun r _ => List.Perm.refl _) (by decide) h⟩

/-- Hexadecimal digit characters decode back to their value and are digits or
upper-case letters A-F. -/
theorem hexDigit_spec : ∀ n, n < 16 →
    Sigmaker.hexDigitVal (Sigmaker.hexDigit n) = n ∧
      (('0' ≤ Sigmaker.hexDigit n ∧ Sigmaker.hexDigit n ≤ '9') ∨
        ('A' ≤ Sigmaker.hexDigit n ∧ Sigmaker.hexDigit n ≤ 'F')) := by
  decide

/-- The two-character rendering of a byte decodes back to the byte and uses
only upper-case hexadecimal digit characters. -/
theorem hexPair_spec (b : Nat) (hb : b < 256) :
    Sigmaker.hexVal (Sigmaker.hexPair b) = b ∧
      (Sigmaker.hexPair b).toList.length = 2 ∧
      ∀ c ∈ (Sigmaker.hexPair b).toList,
        ('0' ≤ c ∧ c ≤ '9') ∨ ('A' ≤ c ∧ c ≤ 'F') := by
  have h1 := hexDigit_spec (b / 16) (by omega)
  have h2 := hexDigit_spec (b % 16) (by omega)
  have htl : (Sigmaker.hexPair b).toList =
      [Sigmaker.hexDigit (b / 16), Sigmaker.hexDigit (b % 16)] := rfl
  refine ⟨?_, by rw [htl]; rfl, ?_⟩
  · rw [Sigmaker.hexVal, htl, List.foldl_cons, List.foldl_cons, List.foldl_nil]
    rw [h1.1, h2.1]
    omega
  · intro c hc
    rw [htl] at hc
    rcases List.mem_cons.mp hc with rfl | hc2
    · exact h1.2
    · rcases List.mem_cons.mp hc2 with rfl | hc3
      · exact h2.2
      · simp at hc3

/-- Claim C9, counterexample: the claim states that every signature string
returned by find_sigs renders the full 128-byte buffer, but the renderer only
renders the decoded prefix (|mask| positions).  A run whose single candidate
decodes one three-byte instruction and is immediately unique emits the
seven-character string "AA ? AA": three rendered positions, not 128 (a
128-position rendering would need at least 128 + 127 characters). -/
theorem spec_c9_counterexample :
    Sigmaker.find_sigs (fun _ => 0xAA) [] [0]
        (fun s => if s.mask = [] then some [0xFF, 0x00, 0xFF] else none) 2 = ["AA ? AA"] ∧
    ("AA ? AA").toList.length = 7 ∧ (7 : Nat) < 128 + 127 ∧
    (readBytes (fun _ => 0xAA) 0 Sigmaker.MAX_SIG_LENGTH).length = 128 := by
  refine ⟨by rfl, by rfl, by decide, by rfl⟩

/-- Claim C9 (amended): every signature string is the space-joined rendering
of the first |mask| buffer positions (the decoded prefix, at most 128): a
position renders as a literal question mark exactly when its mask byte is
zero, and otherwise as the two-digit upper-case hexadecimal encoding of its
buffer byte. -/
theorem spec_c9_format_amended (bytes mask : List Nat) (hb : ∀ b ∈ bytes, b < 256) :
    Sigmaker.bytes_to_string bytes mask =
      String.intercalate " " (Sigmaker.sigTokens bytes mask) ∧
    (Sigmaker.sigTokens bytes mask).length = min bytes.length mask.length ∧
    ∀ (i : Nat) (h1 : i < bytes.length) (h2 : i < mask.length)
      (ht : i < (Sigmaker.sigTokens bytes mask).length),
      (mask[i] = 0 → (Sigmaker.sigTokens bytes mask)[i] = "?") ∧
      (¬mask[i] = 0 →
        (Sigmaker.sigTokens bytes mask)[i] = Sigmaker.hexPair bytes[i] ∧
        ((Sigmaker.sigTokens bytes mask)[i]).toList.length = 2 ∧
        (∀ c ∈ ((Sigmaker.sigTokens bytes mask)[i]).toList,
          ('0' ≤ c ∧ c ≤ '9') ∨ ('A' ≤ c ∧ c ≤ 'F')) ∧
        Sigmaker.hexVal ((Sigmaker.sigTokens bytes mask)[i]) = bytes[i]) := by
  refine ⟨rfl, by simp [Sigmaker.sigTokens, List.length_zip], ?_⟩
  intro i h1 h2 ht
  have hzl : i < (bytes.zip mask).length := by
    rw [List.length_zip]
    omega
  have htok : (Sigmaker.sigTokens bytes mask)[i] =
      if mask[i] = 0 then "?" else Sigmaker.hexPair bytes[i] := by
    simp only [Sigmaker.sigTokens] at ht ⊢
    rw [List.getElem_map, List.getElem_zip]
  constructor
  · intro hz
    rw [htok, if_pos hz]
  · intro hnz
    rw [htok, if_neg hnz]
    obtain ⟨hv, hlen, hcls⟩ := hexPair_spec bytes[i] (hb _ (List.getElem_mem h1))
    exact ⟨rfl, hlen, hcls, hv⟩

/-- Claim C9, witness: the amended theorem applied to a two-byte buffer whose
second position is wildcarded. -/
theorem spec_c9_witness :
    (∀ b ∈ [0xAA, 0xAB], b < 256) ∧
    (Sigmaker.bytes_to_string [0xAA, 0xAB] [0xFF, 0] =
        String.intercalate " " (Sigmaker.sigTokens [0xAA, 0xAB] [0xFF, 0]) ∧
      (Sigmaker.sigTokens [0xAA, 0xAB] [0xFF, 0]).length =
        min ([0xAA, 0xAB] : List Nat).length ([0xFF, 0] : List Nat).length ∧
      ∀ (i : Nat) (h1 : i < ([0xAA, 0xAB] : List Nat).length)
        (h2 : i < ([0xFF, 0] : List Nat).length)
        (ht : i < (Sigmaker.sigTokens [0xAA, 0xAB] [0xFF, 0]).length),
        (([0xFF, 0] : List Nat)[i] = 0 →
          (Sigmaker.sigTokens [0xAA, 0xAB] [0xFF, 0])[i] = "?") ∧
        (¬([0xFF, 0] : List Nat)[i] = 0 →
          (Sigmaker.sigTokens [0xAA, 0xAB] [0xFF, 0])[i] =
            Sigmaker.hexPair ([0xAA, 0xAB] : List Nat)[i] ∧
          ((Sigmaker.sigTokens [0xAA, 0xAB] [0xFF, 0])[i]).toList.length = 2 ∧
          (∀ c ∈ ((Sigmaker.sigTokens [0xAA, 0xAB] [0xFF, 0])[i]).toList,
            ('0' ≤ c ∧ c ≤ '9') ∨ ('A' ≤ c ∧ c ≤ 'F')) ∧
          Sigmaker.hexVal ((Sigmaker.sigTokens [0xAA, 0xAB] [0xFF, 0])[i]) =
            ([0xAA, 0xAB] : List Nat)[i])) :=
  ⟨by decide, spec_c9_format_amended [0xAA, 0xAB] [0xFF, 0] (by decide)⟩

/-- Claim C1: every signature string emitted by find_sigs masked-matches the
memory at its own start ip and at exactly zero other window addresses across
the scanned code-section ranges. -/
theorem spec_c1_signature_unique (mem : Nat → Nat) (ranges : List (Nat × Nat))
    (addrs : List Nat) (step : Sigstate → Option (List Nat)) (fuel : Nat) :
    ∀ str ∈ Sigmaker.find_sigs mem ranges addrs step fuel,
      ∃ ip mask, ip ∈ addrs ∧
        str = Sigmaker.bytes_to_string (readBytes mem ip Sigmaker.MAX_SIG_LENGTH) mask ∧
        Sigmaker.maskedEq (readBytes mem ip Sigmaker.MAX_SIG_LENGTH)
          (readBytes mem ip Sigmaker.MAX_SIG_LENGTH) mask = true ∧
        ∀ r ∈ ranges, ∀ off ∈ strideOffs r.2, ∀ o ∈ List.range 0x1000,
          r.1 + off + o ≠ ip →
            Sigmaker.maskedEq (readBytes mem (r.1 + off + o) Sigmaker.MAX_SIG_LENGTH)
              (readBytes mem ip Sigmaker.MAX_SIG_LENGTH) mask = false := by
  intro str hstr
  rw [Sigmaker.find_sigs] at hstr
  have hP : ∀ s ∈ addrs.map (fun a =>
      Sigstate.mk a (readBytes mem a Sigmaker.MAX_SIG_LENGTH) []),
      s.start_ip ∈ addrs ∧ s.buf = readBytes mem s.start_ip Sigmaker.MAX_SIG_LENGTH := by
    intro s hs
    rw [List.mem_map] at hs
    obtain ⟨a, ha, rfl⟩ := hs
    exact ⟨ha, rfl⟩
  obtain ⟨s, ⟨hip, hbuf⟩, hdup, rfl⟩ := find_sigs_loop_spec mem ranges step
    (fun ip buf => ip ∈ addrs ∧ buf = readBytes mem ip Sigmaker.MAX_SIG_LENGTH)
    fuel _ hP str hstr
  rw [dupCount_eq_zero_iff] at hdup
  refine ⟨s.start_ip, s.mask, hip, by rw [hbuf], maskedEq_self _ _, ?_⟩
  intro r hr off hoff o ho hne
  have hm := hdup r hr off hoff o ho hne
  rw [hbuf] at hm
  exact hm

/-- Claim C1, witness: a run over no code ranges is immediately unique and the
theorem applies to its emitted string. -/
theorem spec_c1_witness :
    ("BB" ∈ Sigmaker.find_sigs (fun _ => 0xBB) [] [3]
        (fun s => if s.mask = [] then some [0xFF] else none) 1) ∧
    (∃ ip mask, ip ∈ [3] ∧
      "BB" = Sigmaker.bytes_to_string (readBytes (fun _ => 0xBB) ip
        Sigmaker.MAX_SIG_LENGTH) mask ∧
      Sigmaker.maskedEq (readBytes (fun _ => 0xBB) ip Sigmaker.MAX_SIG_LENGTH)
        (readBytes (fun _ => 0xBB) ip Sigmaker.MAX_SIG_LENGTH) mask = true ∧
      ∀ r ∈ ([] : List (Nat × Nat)), ∀ off ∈ strideOffs r.2, ∀ o ∈ List.range 0x1000,
        r.1 + off + o ≠ ip →
          Sigmaker.maskedEq (readBytes (fun _ => 0xBB) (r.1 + off + o)
              Sigmaker.MAX_SIG_LENGTH)
            (readBytes (fun _ => 0xBB) ip Sigmaker.MAX_SIG_LENGTH) mask = false) := by
  have hmem : "BB" ∈ Sigmaker.find_sigs (fun _ => 0xBB) [] [3]
      (fun s => if s.mask = [] then some [0xFF] else none) 1 := by
    rw [show Sigmaker.find_sigs (fun _ => 0xBB) [] [3]
      (fun s => if s.mask = [] then some [0xFF] else none) 1 = ["BB"] from rfl]
    exact List.mem_singleton.mpr rfl
  exact ⟨hmem,
    spec_c1_signature_unique (fun _ => 0xBB) [] [3]
      (fun s => if s.mask = [] then some [0xFF] else none) 1 "BB" hmem⟩

end Scanflow
